import Mathlib

/-!
Verification of the template-rendering engine of `@plaited/development-skills`
(`src/scaffold-rules.ts`) and the path-resolution helper (`resolve-file-path.ts`).

Strings are embedded as `List Char`.  Each JavaScript global regex replace is
embedded as a left-to-right scanner (`replaceScan`): at every position it either
fires the matcher (emitting the replacement and continuing after the match, as
`String.replace` with a `/g` regex does) or emits one character and moves on.
The matchers mirror the concrete regexes of the source, including the lazy
body of conditional blocks and its negative lookaheads.
-/

namespace DevSkills

abbrev Str := List Char

/-- `startsWithL pat s` is true iff `pat` is a prefix of `s`. -/
def startsWithL : Str → Str → Bool
  | [], _ => true
  | _ :: _, [] => false
  | p :: ps, c :: cs => p == c && startsWithL ps cs

/-- `hasSub pat s` is true iff `pat` occurs as a contiguous substring of `s`
(for nonempty `pat`). -/
def hasSub (pat : Str) : Str → Bool
  | [] => startsWithL pat []
  | c :: rest => startsWithL pat (c :: rest) || hasSub pat rest

/-- JavaScript `\w` character class: `[A-Za-z0-9_]`. -/
def isWordChar (c : Char) : Bool :=
  (65 ≤ c.toNat && c.toNat ≤ 90) || (97 ≤ c.toNat && c.toNat ≤ 122) ||
    (48 ≤ c.toNat && c.toNat ≤ 57) || c.toNat == 95

/-- Character class `[\w:-]` used for condition names in the conditional-block
regexes of `processConditionals`. -/
def isCondChar (c : Char) : Bool :=
  isWordChar c || c.toNat == 58 || c.toNat == 45

/-- The closed set of agent identities (`type Agent` in `scaffold-rules.ts`). -/
inductive Agent
  | claude | cursor | factory | copilot | windsurf | cline | aider | agentsMd
deriving DecidableEq

/-- The literal string value of each agent identity. -/
def Agent.name : Agent → Str
  | .claude => "claude".data
  | .cursor => "cursor".data
  | .factory => "factory".data
  | .copilot => "copilot".data
  | .windsurf => "windsurf".data
  | .cline => "cline".data
  | .aider => "aider".data
  | .agentsMd => "agents-md".data

/-- `type AgentCapabilities` of `scaffold-rules.ts`. -/
structure AgentCapabilities where
  hasSandbox : Bool
  multiFileRules : Bool
  supportsSlashCommands : Bool
  supportsAgentsMd : Bool
deriving DecidableEq

/-- The `AGENT_CAPABILITIES` matrix of `scaffold-rules.ts`. -/
def AGENT_CAPABILITIES : Agent → AgentCapabilities
  | .claude => ⟨true, true, true, false⟩
  | .cursor => ⟨false, true, false, true⟩
  | .factory => ⟨false, true, false, true⟩
  | .copilot => ⟨false, false, false, true⟩
  | .windsurf => ⟨false, false, false, false⟩
  | .cline => ⟨false, false, false, false⟩
  | .aider => ⟨false, false, false, true⟩
  | .agentsMd => ⟨false, true, false, true⟩

/-- `type TemplateContext` of `scaffold-rules.ts`. -/
structure TemplateContext where
  agent : Agent
  capabilities : AgentCapabilities
  hasDevelopmentSkills : Bool
  rulesPath : Str

/-- The literal `agent:` prefix of the legacy agent conditions. -/
def agentPre : Str := "agent:".data

/-- The regex `^agent:(\w+)$` of `evaluateCondition`: returns the captured
`\w+` group when the whole condition matches. -/
def matchAgentCond (cond : Str) : Option Str :=
  if startsWithL agentPre cond && !(cond.drop 6).isEmpty && (cond.drop 6).all isWordChar
  then some (cond.drop 6) else none

/-- `evaluateCondition` of `scaffold-rules.ts`. -/
def evaluateCondition (cond : Str) (ctx : TemplateContext) : Bool :=
  if cond = "development-skills".data then ctx.hasDevelopmentSkills
  else if cond = "has-sandbox".data then ctx.capabilities.hasSandbox
  else if cond = "multi-file-rules".data then ctx.capabilities.multiFileRules
  else if cond = "supports-slash-commands".data then ctx.capabilities.supportsSlashCommands
  else if cond = "supports-agents-md".data then ctx.capabilities.supportsAgentsMd
  else
    match matchAgentCond cond with
    | some nm => ctx.agent.name == nm
    | none => false

/-- Generic left-to-right global replace: at each position, `f` either matches
(returning the replacement and the remainder after the match) or fails, in
which case the character is copied and scanning resumes one position later.
This is the semantics of `String.prototype.replace` with a global regex whose
matches are nonempty.  `fuel` bounds the number of scan steps; every use
supplies `fuel` at least the length of the text, which suffices because every
match consumes at least one character. -/
def replaceScan (f : Str → Option (Str × Str)) : Nat → Str → Str
  | 0, s => s
  | _ + 1, [] => []
  | fuel + 1, c :: rest =>
    match f (c :: rest) with
    | some (rep, rem) => rep ++ replaceScan f fuel rem
    | none => c :: replaceScan f fuel rest

/-- `replaceScan` with the canonical fuel (the length of the text). -/
def rscan (f : Str → Option (Str × Str)) (s : Str) : Str :=
  replaceScan f s.length s

def hdrOpen : Str := "<!--".data
def hdrClose : Str := "-->".data

/-- Scan for the first occurrence of `-->` (the lazy `[\s\S]*?-->` of the
header regex); on success drop it plus the trailing `\n*`. -/
def afterHeaderClose : Str → Option Str
  | [] => none
  | c :: rest =>
    if startsWithL hdrClose (c :: rest) then
      some (((c :: rest).drop 3).dropWhile (fun d => d == '\n'))
    else afterHeaderClose rest

/-- Matcher for the header regex `<!--[\s\S]*?-->\n*` (replaced by nothing). -/
def fHeader (s : Str) : Option (Str × Str) :=
  if startsWithL hdrOpen s then
    match afterHeaderClose (s.drop 4) with
    | some rem => some ([], rem)
    | none => none
  else none

/-- `removeTemplateHeaders` of `scaffold-rules.ts`:
`content.replace(/<!--[\s\S]*?-->\n*/g, '')`. -/
def removeTemplateHeaders (s : Str) : Str := rscan fHeader s

def posOpen : Str := "\x7b\x7b#if ".data
def invOpen : Str := "\x7b\x7b^if ".data
def closeTok : Str := "\x7b\x7b/if\x7d\x7d".data
def lbrace2 : Str := "\x7b\x7b".data
def rbrace2 : Str := "\x7d\x7d".data

/-- The lazy block body `((?:(?!\{\{#if )(?!\{\{\^if )(?!\{\{\/if\}\})[\s\S])*?)\{\{\/if\}\}`:
walk forward, stopping at the first `{{/if}}`; fail if an opening marker of
either kind is reached first (the negative lookaheads), or at end of input.
Returns the body and the remainder after the closing marker. -/
def scanBody : Str → Option (Str × Str)
  | [] => none
  | c :: rest =>
    if startsWithL closeTok (c :: rest) then some ([], (c :: rest).drop 7)
    else if startsWithL posOpen (c :: rest) || startsWithL invOpen (c :: rest) then none
    else (scanBody rest).map (fun br => (c :: br.1, br.2))

/-- Matcher for the positive conditional regex
`\{\{#if ([\w:-]+)\}\}(body)\{\{\/if\}\}`: replacement is the body when the
condition evaluates true, else empty. -/
def matchPos (ctx : TemplateContext) (s : Str) : Option (Str × Str) :=
  if startsWithL posOpen s then
    let cond := (s.drop 6).takeWhile isCondChar
    let rest1 := (s.drop 6).dropWhile isCondChar
    if !cond.isEmpty && startsWithL rbrace2 rest1 then
      match scanBody (rest1.drop 2) with
      | some br => some ((if evaluateCondition cond ctx then br.1 else []), br.2)
      | none => none
    else none
  else none

/-- Matcher for the inverse conditional regex `\{\{\^if ([\w:-]+)\}\}...`:
replacement is empty when the condition evaluates true, else the body. -/
def matchInv (ctx : TemplateContext) (s : Str) : Option (Str × Str) :=
  if startsWithL invOpen s then
    let cond := (s.drop 6).takeWhile isCondChar
    let rest1 := (s.drop 6).dropWhile isCondChar
    if !cond.isEmpty && startsWithL rbrace2 rest1 then
      match scanBody (rest1.drop 2) with
      | some br => some ((if evaluateCondition cond ctx then [] else br.1), br.2)
      | none => none
    else none
  else none

/-- One iteration of the `while` loop of `processConditionals`: the positive
replace over the whole text, then the inverse replace over its output. -/
def onePass (ctx : TemplateContext) (s : Str) : Str :=
  rscan (matchInv ctx) (rscan (matchPos ctx) s)

/-- The `while (result !== previousResult)` loop, driven by fuel. -/
def condLoop (ctx : TemplateContext) : Nat → Str → Str
  | 0, s => s
  | fuel + 1, s =>
    if onePass ctx s = s then s else condLoop ctx fuel (onePass ctx s)

/-- `processConditionals` of `scaffold-rules.ts`.  The fuel `s.length + 1`
provably suffices to reach the loop's fixed point because every changing pass
strictly shrinks the text (theorem `processConditionals_terminates`). -/
def processConditionals (s : Str) (ctx : TemplateContext) : Str :=
  condLoop ctx (s.length + 1) s

def linkOpen : Str := "\x7b\x7bLINK:".data
def agentNameTok : Str := "\x7b\x7bAGENT_NAME\x7d\x7d".data
def rulesPathTok : Str := "\x7b\x7bRULES_PATH\x7d\x7d".data

/-- `generateCrossReference` of `scaffold-rules.ts`. -/
def generateCrossReference (ruleId : Str) (ctx : TemplateContext) : Str :=
  match ctx.agent with
  | .claude => '@' :: ctx.rulesPath ++ '/' :: ruleId ++ ".md".data
  | .cursor => ".cursor/rules/".data ++ ruleId ++ ".md".data
  | .factory => ".factory/rules/".data ++ ruleId ++ ".md".data
  | .agentsMd => ".plaited/rules/".data ++ ruleId ++ ".md".data
  | .copilot => "See \"".data ++ ruleId ++ "\" section".data
  | _ => ruleId ++ ".md".data

/-- Matcher for `\{\{LINK:(\w+)\}\}` (replaced by the cross-reference). -/
def fLink (ctx : TemplateContext) (s : Str) : Option (Str × Str) :=
  if startsWithL linkOpen s then
    let rid := (s.drop 7).takeWhile isWordChar
    let rest1 := (s.drop 7).dropWhile isWordChar
    if !rid.isEmpty && startsWithL rbrace2 rest1 then
      some (generateCrossReference rid ctx, rest1.drop 2)
    else none
  else none

/-- Matcher for the literal `\{\{AGENT_NAME\}\}` token. -/
def fAgentName (ctx : TemplateContext) (s : Str) : Option (Str × Str) :=
  if startsWithL agentNameTok s then some (ctx.agent.name, s.drop 14) else none

/-- Matcher for the literal `\{\{RULES_PATH\}\}` token. -/
def fRulesPath (ctx : TemplateContext) (s : Str) : Option (Str × Str) :=
  if startsWithL rulesPathTok s then some (ctx.rulesPath, s.drop 14) else none

/-- `processVariables` of `scaffold-rules.ts`: the three global replaces in
their source order (LINK, then AGENT_NAME, then RULES_PATH). -/
def processVariables (s : Str) (ctx : TemplateContext) : Str :=
  rscan (fRulesPath ctx) (rscan (fAgentName ctx) (rscan (fLink ctx) s))

def nl3 : Str := "\n\n\n".data
def nl2 : Str := "\n\n".data

/-- Matcher for `\n{3,}` (greedy, replaced by exactly two newlines). -/
def fNewlines (s : Str) : Option (Str × Str) :=
  if startsWithL nl3 s then some (nl2, s.dropWhile (fun c => c == '\n')) else none

/-- The final whitespace-normalization stage `result.replace(/\n{3,}/g, '\n\n')`. -/
def collapseNewlines (s : Str) : Str := rscan fNewlines s

/-- `processTemplate` of `scaffold-rules.ts`: header strip, conditionals,
variables, blank-line collapse, in that order. -/
def processTemplate (s : Str) (ctx : TemplateContext) : Str :=
  collapseNewlines (processVariables (processConditionals (removeTemplateHeaders s) ctx) ctx)

/-- `getRulesPath` of `scaffold-rules.ts`. -/
def getRulesPath : Agent → Str
  | .claude => ".claude/rules".data
  | .cursor => ".cursor/rules".data
  | .factory => ".factory/rules".data
  | .agentsMd => ".plaited/rules".data
  | .copilot => ".github/copilot-instructions.md".data
  | .windsurf => ".windsurfrules".data
  | .cline => ".clinerules".data
  | .aider => ".aider.conf.yml".data

/-- The render context the CLI builds in `scaffoldRules` (lines 407-415):
capabilities looked up in the matrix, `hasDevelopmentSkills` hard-coded to
`true`, `rulesPath` from `getRulesPath`. -/
def mkCliContext (agent : Agent) : TemplateContext :=
  { agent := agent
    capabilities := AGENT_CAPABILITIES agent
    hasDevelopmentSkills := true
    rulesPath := getRulesPath agent }

/-- The regex test `/\.(tsx?|jsx?|mjs|cjs|json)$/.test(path)` inside
`looksLikeFilePath`: the path ends with one of the recognized source-file
extensions (dot included). -/
def hasSourceExt (path : Str) : Bool :=
  startsWithL ".ts".data.reverse path.reverse || startsWithL ".tsx".data.reverse path.reverse ||
    startsWithL ".js".data.reverse path.reverse || startsWithL ".jsx".data.reverse path.reverse ||
    startsWithL ".mjs".data.reverse path.reverse || startsWithL ".cjs".data.reverse path.reverse ||
    startsWithL ".json".data.reverse path.reverse

/-- `looksLikeFilePath` of `resolve-file-path.ts`: not a scoped package,
contains a `/`, and ends in a recognized source extension. -/
def looksLikeFilePath (path : Str) : Bool :=
  if startsWithL "@".data path then false
  else path.contains '/' && hasSourceExt path

/-- `resolveFilePath` of `resolve-file-path.ts`.  The two external
collaborators are passed as functions: `joinP` is `node:path`'s `join` and
`bunResolve` is `Bun.resolve` (returning `none` when it throws). -/
def resolveFilePath (bunResolve : Str → Str → Option Str) (joinP : Str → Str → Str)
    (cwd fp : Str) : Str :=
  if startsWithL "/".data fp then fp
  else if startsWithL ".".data fp then joinP cwd fp
  else if looksLikeFilePath fp then joinP cwd fp
  else
    match bunResolve fp cwd with
    | some r => r
    | none => joinP cwd fp

/-- Number of leading newline characters of a string (used to reason about
the blank-line collapse stage). -/
def leadNl : Str → Nat
  | [] => 0
  | c :: r => if c = '\n' then leadNl r + 1 else 0

/-- The five literal condition names recognized by `evaluateCondition` before
the `agent:` fallback. -/
def knownConds : List Str :=
  ["development-skills".data, "has-sandbox".data, "multi-file-rules".data,
    "supports-slash-commands".data, "supports-agents-md".data]

/-- Conditions of the spec's `agent:<name>` family, with `<name>` drawn from
the condition-token grammar `[A-Za-z0-9_:-]+`. -/
def isAgentForm (cond : Str) : Bool :=
  startsWithL agentPre cond && !(cond.drop 6).isEmpty && (cond.drop 6).all isCondChar

/-- The condition name `development-skills`. -/
def dsName : Str := "development-skills".data

/-- The opener `{{#if development-skills}}` of a positive toolset block. -/
def devPosOpen : Str := "\x7b\x7b#if development-skills\x7d\x7d".data

/-- The opener `{{^if development-skills}}` of an inverse toolset block. -/
def devInvOpen : Str := "\x7b\x7b^if development-skills\x7d\x7d".data

/-! ### Basic lemmas about prefixes and substrings -/

theorem startsWithL_iff (p s : Str) : startsWithL p s = true ↔ ∃ t, s = p ++ t := by
  induction p generalizing s with
  | nil => simp [startsWithL]
  | cons x xs ih =>
    cases s with
    | nil => simp [startsWithL]
    | cons c cs =>
      simp only [startsWithL, Bool.and_eq_true, beq_iff_eq, ih, List.cons_append]
      constructor
      · rintro ⟨rfl, t, rfl⟩; exact ⟨t, rfl⟩
      · rintro ⟨t, h⟩
        injection h with h1 h2
        exact ⟨h1.symm, t, h2⟩

theorem startsWithL_append_self (p t : Str) : startsWithL p (p ++ t) = true :=
  (startsWithL_iff p (p ++ t)).2 ⟨t, rfl⟩

theorem startsWithL_trans {p q s : Str} (h1 : startsWithL p q = true)
    (h2 : startsWithL q s = true) : startsWithL p s = true := by
  obtain ⟨t1, rfl⟩ := (startsWithL_iff p q).1 h1
  obtain ⟨t2, rfl⟩ := (startsWithL_iff (p ++ t1) s).1 h2
  rw [List.append_assoc]
  exact startsWithL_append_self p _

theorem startsWithL_head {p : Char} {ps : Str} {c : Char} {cs : Str}
    (h : startsWithL (p :: ps) (c :: cs) = true) : c = p := by
  simp only [startsWithL, Bool.and_eq_true, beq_iff_eq] at h
  exact h.1.symm

theorem startsWithL_append_of_ne {pat a : Str} (x : Str)
    (h : startsWithL pat a = false) (hlen : pat.length ≤ a.length) :
    startsWithL pat (a ++ x) = false := by
  induction pat generalizing a with
  | nil => simp [startsWithL] at h
  | cons p ps ih =>
    cases a with
    | nil => simp at hlen
    | cons c cs =>
      simp only [startsWithL, Bool.and_eq_false_iff] at h ⊢
      rcases h with h | h
      · exact Or.inl h
      · exact Or.inr (ih h (Nat.le_of_succ_le_succ hlen))

theorem hasSub_cons (pat : Str) (c : Char) (r : Str) :
    hasSub pat (c :: r) = (startsWithL pat (c :: r) || hasSub pat r) := rfl

theorem hasSub_tail {pat : Str} {c : Char} {r : Str} (h : hasSub pat (c :: r) = false) :
    hasSub pat r = false := by
  rw [hasSub_cons, Bool.or_eq_false_iff] at h
  exact h.2

theorem startsWithL_eq_false_of_hasSub {pat : Str} {c : Char} {r : Str}
    (h : hasSub pat (c :: r) = false) : startsWithL pat (c :: r) = false := by
  rw [hasSub_cons, Bool.or_eq_false_iff] at h
  exact h.1

theorem hasSub_eq_false_of_notMem {d : Char} {ps s : Str} (h : d ∉ s) :
    hasSub (d :: ps) s = false := by
  induction s with
  | nil => rfl
  | cons c r ih =>
    rw [hasSub_cons, Bool.or_eq_false_iff]
    refine ⟨?_, ih (fun hm => h (List.mem_cons_of_mem c hm))⟩
    cases hsw : startsWithL (d :: ps) (c :: r) with
    | false => rfl
    | true => exact absurd (startsWithL_head hsw ▸ List.mem_cons_self c r) h

theorem mem_of_mem_dropL {a : Char} {l : Str} {n : Nat} (h : a ∈ l.drop n) : a ∈ l := by
  induction n generalizing l with
  | zero => simpa using h
  | succ k ih =>
    cases l with
    | nil => simpa using h
    | cons c cs => exact List.mem_cons_of_mem c (ih h)

theorem mem_of_mem_dropWhileL {a : Char} {p : Char → Bool} {l : Str}
    (h : a ∈ l.dropWhile p) : a ∈ l := by
  induction l with
  | nil => simpa using h
  | cons c cs ih =>
    rw [List.dropWhile_cons] at h
    by_cases hp : p c = true
    · simp only [hp, if_true] at h
      exact List.mem_cons_of_mem c (ih h)
    · simp only [Bool.not_eq_true] at hp
      simp only [hp] at h
      simpa using h

theorem length_dropWhileL (l : Str) (p : Char → Bool) :
    (l.dropWhile p).length ≤ l.length := by
  induction l with
  | nil => simp
  | cons c cs ih =>
    rw [List.dropWhile_cons]
    by_cases hp : p c = true
    · simp only [hp, if_true]
      exact Nat.le_trans ih (by simp)
    · simp only [Bool.not_eq_true] at hp
      simp [hp]

/-! ### Generic lemmas about the global-replace scanner -/

section ReplaceScan

variable {f : Str → Option (Str × Str)}

theorem replaceScan_step_none {c : Char} {rest : Str} {fuel : Nat}
    (h : f (c :: rest) = none) :
    replaceScan f (fuel + 1) (c :: rest) = c :: replaceScan f fuel rest := by
  simp only [replaceScan, h]

theorem replaceScan_step_some {c : Char} {rest rep rem : Str} {fuel : Nat}
    (h : f (c :: rest) = some (rep, rem)) :
    replaceScan f (fuel + 1) (c :: rest) = rep ++ replaceScan f fuel rem := by
  simp only [replaceScan, h]

theorem replaceScan_fuel_irrel
    (hrem : ∀ s rep rem, f s = some (rep, rem) → rem.length < s.length) :
    ∀ fuel fuel' s, s.length ≤ fuel → s.length ≤ fuel' →
      replaceScan f fuel s = replaceScan f fuel' s := by
  intro fuel
  induction fuel with
  | zero =>
    intro fuel' s hs _
    have : s = [] := List.eq_nil_of_length_eq_zero (Nat.le_zero.1 hs)
    subst this
    cases fuel' <;> rfl
  | succ k ih =>
    intro fuel' s hs hs'
    cases s with
    | nil => cases fuel' <;> rfl
    | cons c rest =>
      cases fuel' with
      | zero => simp at hs'
      | succ k' =>
        cases hf : f (c :: rest) with
        | none =>
          have hr : rest.length ≤ k := Nat.le_of_succ_le_succ hs
          have hr' : rest.length ≤ k' := Nat.le_of_succ_le_succ hs'
          rw [replaceScan_step_none hf, replaceScan_step_none hf, ih k' rest hr hr']
        | some pr =>
          obtain ⟨rep, rem⟩ := pr
          have hrm := hrem _ _ _ hf
          have h1 : rem.length ≤ k := Nat.le_of_lt_succ (Nat.lt_of_lt_of_le hrm hs)
          have h2 : rem.length ≤ k' := Nat.le_of_lt_succ (Nat.lt_of_lt_of_le hrm hs')
          rw [replaceScan_step_some hf, replaceScan_step_some hf, ih k' rem h1 h2]

theorem rscan_nil : rscan f [] = [] := rfl

theorem rscan_cons_none {c : Char} {r : Str} (h : f (c :: r) = none) :
    rscan f (c :: r) = c :: rscan f r := by
  simp [rscan, replaceScan, h]

theorem rscan_cons_some
    (hrem : ∀ s rep rem, f s = some (rep, rem) → rem.length < s.length)
    {c : Char} {r : Str} {rep rem : Str} (h : f (c :: r) = some (rep, rem)) :
    rscan f (c :: r) = rep ++ rscan f rem := by
  have hlt : rem.length < r.length + 1 := hrem _ _ _ h
  simp only [rscan, List.length_cons, replaceScan, h]
  rw [replaceScan_fuel_irrel hrem r.length rem.length rem (Nat.le_of_lt_succ hlt) (Nat.le_refl _)]

theorem replaceScan_id_of_no_trigger {trig : Char}
    (htrig : ∀ c r, (f (c :: r)).isSome = true → c = trig) :
    ∀ fuel s, (∀ c ∈ s, c ≠ trig) → replaceScan f fuel s = s := by
  intro fuel
  induction fuel with
  | zero => intro s _; rfl
  | succ k ih =>
    intro s hs
    cases s with
    | nil => rfl
    | cons c rest =>
      have hf : f (c :: rest) = none := by
        cases hf : f (c :: rest) with
        | none => rfl
        | some pr =>
          exact absurd (htrig c rest (by simp [hf])) (hs c (List.mem_cons_self c rest))
      simp only [replaceScan, hf]
      rw [ih rest (fun d hd => hs d (List.mem_cons_of_mem c hd))]

theorem replaceScan_id_of_no_pat {pat : Str}
    (htrig : ∀ s', (f s').isSome = true → startsWithL pat s' = true) :
    ∀ fuel s, hasSub pat s = false → replaceScan f fuel s = s := by
  intro fuel
  induction fuel with
  | zero => intro s _; rfl
  | succ k ih =>
    intro s hs
    cases s with
    | nil => rfl
    | cons c rest =>
      have hf : f (c :: rest) = none := by
        cases hf : f (c :: rest) with
        | none => rfl
        | some pr =>
          have := htrig (c :: rest) (by simp [hf])
          rw [startsWithL_eq_false_of_hasSub hs] at this
          exact absurd this (by simp)
      simp only [replaceScan, hf]
      rw [ih rest (hasSub_tail hs)]

theorem rscan_id_of_no_pat {pat : Str}
    (htrig : ∀ s', (f s').isSome = true → startsWithL pat s' = true)
    {s : Str} (hs : hasSub pat s = false) : rscan f s = s :=
  replaceScan_id_of_no_pat htrig _ s hs

theorem replaceScan_append_free {trig : Char}
    (htrig : ∀ c r, (f (c :: r)).isSome = true → c = trig) :
    ∀ (a : Str) (fuel : Nat) (s : Str), (∀ c ∈ a, c ≠ trig) →
      replaceScan f (a.length + fuel) (a ++ s) = a ++ replaceScan f fuel s := by
  intro a
  induction a with
  | nil =>
    intro fuel s _
    rw [List.length_nil, Nat.zero_add]
    rfl
  | cons c a' ih =>
    intro fuel s ha
    have hf : f (c :: (a' ++ s)) = none := by
      cases hf : f (c :: (a' ++ s)) with
      | none => rfl
      | some pr =>
        exact absurd (htrig c (a' ++ s) (by rw [hf]; rfl)) (ha c (List.mem_cons_self c a'))
    have harr : (c :: a').length + fuel = (a'.length + fuel) + 1 := by
      simp only [List.length_cons]
      omega
    rw [harr, List.cons_append, replaceScan_step_none hf,
      ih fuel s (fun d hd => ha d (List.mem_cons_of_mem c hd)), List.cons_append]

theorem rscan_append_free {trig : Char}
    (htrig : ∀ c r, (f (c :: r)).isSome = true → c = trig)
    {a s : Str} (ha : ∀ c ∈ a, c ≠ trig) : rscan f (a ++ s) = a ++ rscan f s := by
  have h : (a ++ s).length = a.length + s.length := List.length_append a s
  rw [rscan, h, replaceScan_append_free htrig a s.length s ha, rscan]

theorem rscan_id_of_no_trigger {trig : Char}
    (htrig : ∀ c r, (f (c :: r)).isSome = true → c = trig)
    {s : Str} (hs : ∀ c ∈ s, c ≠ trig) : rscan f s = s :=
  replaceScan_id_of_no_trigger htrig _ s hs

theorem replaceScan_length
    (hshort : ∀ s rep rem, f s = some (rep, rem) → rep.length + rem.length < s.length) :
    ∀ fuel s, s.length ≤ fuel →
      (replaceScan f fuel s).length ≤ s.length ∧
        ((replaceScan f fuel s).length = s.length → replaceScan f fuel s = s) := by
  intro fuel
  induction fuel with
  | zero => intro s _; exact ⟨Nat.le_refl _, fun _ => rfl⟩
  | succ k ih =>
    intro s hs
    cases s with
    | nil => exact ⟨Nat.le_refl _, fun _ => rfl⟩
    | cons c rest =>
      simp only [replaceScan]
      cases hf : f (c :: rest) with
      | none =>
        have hrest : rest.length ≤ k := Nat.le_of_succ_le_succ hs
        obtain ⟨h1, h2⟩ := ih rest hrest
        refine ⟨by simpa using Nat.succ_le_succ h1, ?_⟩
        intro heq
        simp only [List.length_cons, Nat.succ.injEq] at heq
        rw [h2 heq]
      | some pr =>
        have hsh := hshort _ _ _ hf
        have hrem : pr.2.length ≤ k :=
          Nat.le_of_lt_succ (Nat.lt_of_le_of_lt (Nat.le_add_left _ _) (Nat.lt_of_lt_of_le hsh hs))
        obtain ⟨h1, _⟩ := ih pr.2 hrem
        have hlt : (pr.1 ++ replaceScan f k pr.2).length < (c :: rest).length := by
          rw [List.length_append]
          exact Nat.lt_of_le_of_lt (Nat.add_le_add_left h1 _) hsh
        exact ⟨Nat.le_of_lt hlt, fun heq => absurd heq (Nat.ne_of_lt hlt)⟩

theorem replaceScan_chars {P : Char → Prop}
    (hchars : ∀ s rep rem, f s = some (rep, rem) → (∀ c ∈ s, P c) →
      (∀ c ∈ rep, P c) ∧ (∀ c ∈ rem, P c)) :
    ∀ fuel s, (∀ c ∈ s, P c) → ∀ c ∈ replaceScan f fuel s, P c := by
  intro fuel
  induction fuel with
  | zero => intro s hs; exact hs
  | succ k ih =>
    intro s hs
    cases s with
    | nil => exact hs
    | cons c rest =>
      simp only [replaceScan]
      cases hf : f (c :: rest) with
      | none =>
        intro d hd
        rcases List.mem_cons.1 hd with rfl | hd
        · exact hs d (List.mem_cons_self d rest)
        · exact ih rest (fun e he => hs e (List.mem_cons_of_mem c he)) d hd
      | some pr =>
        obtain ⟨hrep, hrem⟩ := hchars _ _ _ hf hs
        intro d hd
        rcases List.mem_append.1 hd with hd | hd
        · exact hrep d hd
        · exact ih pr.2 hrem d hd

end ReplaceScan

/-! ### Facts about the individual matchers -/

theorem startsWithL_length_le {p s : Str} (h : startsWithL p s = true) :
    p.length ≤ s.length := by
  obtain ⟨t, rfl⟩ := (startsWithL_iff p s).1 h
  rw [List.length_append]
  exact Nat.le_add_right _ _

theorem afterHeaderClose_len : ∀ {s r : Str}, afterHeaderClose s = some r →
    r.length ≤ s.length := by
  intro s
  induction s with
  | nil => intro r h; simp [afterHeaderClose] at h
  | cons c rest ih =>
    intro r h
    rw [afterHeaderClose] at h
    split at h
    · injection h with h
      subst h
      calc (((c :: rest).drop 3).dropWhile (fun d => d == '\n')).length
          ≤ ((c :: rest).drop 3).length := length_dropWhileL _ _
        _ ≤ (c :: rest).length := by rw [List.length_drop]; omega
    · exact Nat.le_trans (ih h) (by simp)

theorem afterHeaderClose_mem : ∀ {s r : Str}, afterHeaderClose s = some r →
    ∀ c ∈ r, c ∈ s := by
  intro s
  induction s with
  | nil => intro r h; simp [afterHeaderClose] at h
  | cons c rest ih =>
    intro r h d hd
    rw [afterHeaderClose] at h
    split at h
    · injection h with h
      subst h
      exact mem_of_mem_dropL (mem_of_mem_dropWhileL hd)
    · exact List.mem_cons_of_mem c (ih h d hd)

theorem fHeader_inv {s rep rem : Str} (h : fHeader s = some (rep, rem)) :
    rep = [] ∧ startsWithL hdrOpen s = true ∧ afterHeaderClose (s.drop 4) = some rem := by
  rw [fHeader] at h
  split at h
  · cases hac : afterHeaderClose (s.drop 4) with
    | none => rw [hac] at h; cases h
    | some r =>
      rw [hac] at h
      injection h with h
      injection h with h1 h2
      exact ⟨h1.symm, by assumption, by rw [h2]⟩
  · cases h

theorem fHeader_short : ∀ (s rep rem : Str), fHeader s = some (rep, rem) →
    rep.length + rem.length < s.length := by
  intro s rep rem h
  obtain ⟨hrep, hsw, hac⟩ := fHeader_inv h
  subst hrep
  have h4 : 4 ≤ s.length := startsWithL_length_le hsw
  have := afterHeaderClose_len hac
  rw [List.length_drop] at this
  simp only [List.length_nil, Nat.zero_add]
  omega

theorem fHeader_rem : ∀ (s rep rem : Str), fHeader s = some (rep, rem) →
    rem.length < s.length := by
  intro s rep rem h
  have := fHeader_short s rep rem h
  omega

theorem fHeader_trigger : ∀ (c : Char) (r : Str), (fHeader (c :: r)).isSome = true → c = '<' := by
  intro c r h
  rw [fHeader] at h
  split at h
  · next hsw => exact startsWithL_head hsw
  · simp at h

theorem scanBody_len : ∀ {s b r : Str}, scanBody s = some (b, r) →
    b.length + r.length + 7 ≤ s.length := by
  intro s
  induction s with
  | nil => intro b r h; simp [scanBody] at h
  | cons c rest ih =>
    intro b r h
    rw [scanBody] at h
    split at h
    · next hsw =>
      injection h with h
      injection h with h1 h2
      subst h1
      subst h2
      have h7 : 7 ≤ (c :: rest).length := startsWithL_length_le hsw
      rw [List.length_drop]
      simp only [List.length_nil, Nat.zero_add]
      omega
    · split at h
      · cases h
      · cases hsb : scanBody rest with
        | none => rw [hsb] at h; cases h
        | some br =>
          rw [hsb] at h
          injection h with h
          injection h with h1 h2
          subst h2
          have := ih hsb
          rw [← h1]
          simp only [List.length_cons]
          omega

theorem matchPos_inv {ctx : TemplateContext} {s rep rem : Str}
    (h : matchPos ctx s = some (rep, rem)) :
    startsWithL posOpen s = true ∧
      ∃ b, scanBody (((s.drop 6).dropWhile isCondChar).drop 2) = some (b, rem) ∧
        ((s.drop 6).takeWhile isCondChar).isEmpty = false ∧
        startsWithL rbrace2 ((s.drop 6).dropWhile isCondChar) = true ∧
        rep = (if evaluateCondition ((s.drop 6).takeWhile isCondChar) ctx then b else []) := by
  simp only [matchPos] at h
  split at h
  · next hsw =>
    split at h
    · next hc =>
      cases hsb : scanBody (((s.drop 6).dropWhile isCondChar).drop 2) with
      | none => rw [hsb] at h; cases h
      | some br =>
        rw [hsb] at h
        injection h with h
        injection h with h1 h2
        simp only [Bool.and_eq_true, Bool.not_eq_true'] at hc
        exact ⟨hsw, br.1, by rw [← h2], hc.1, hc.2, h1.symm⟩
    · cases h
  · cases h

theorem matchInv_inv {ctx : TemplateContext} {s rep rem : Str}
    (h : matchInv ctx s = some (rep, rem)) :
    startsWithL invOpen s = true ∧
      ∃ b, scanBody (((s.drop 6).dropWhile isCondChar).drop 2) = some (b, rem) ∧
        ((s.drop 6).takeWhile isCondChar).isEmpty = false ∧
        startsWithL rbrace2 ((s.drop 6).dropWhile isCondChar) = true ∧
        rep = (if evaluateCondition ((s.drop 6).takeWhile isCondChar) ctx then [] else b) := by
  simp only [matchInv] at h
  split at h
  · next hsw =>
    split at h
    · next hc =>
      cases hsb : scanBody (((s.drop 6).dropWhile isCondChar).drop 2) with
      | none => rw [hsb] at h; cases h
      | some br =>
        rw [hsb] at h
        injection h with h
        injection h with h1 h2
        simp only [Bool.and_eq_true, Bool.not_eq_true'] at hc
        exact ⟨hsw, br.1, by rw [← h2], hc.1, hc.2, h1.symm⟩
    · cases h
  · cases h

theorem cond_block_short {s rep rem : Str} {b open6 : Str}
    (hsw : startsWithL open6 s = true) (hlen6 : open6.length = 6)
    (hsb : scanBody (((s.drop 6).dropWhile isCondChar).drop 2) = some (b, rem))
    (hc : ((s.drop 6).takeWhile isCondChar).isEmpty = false)
    (hbr : startsWithL rbrace2 ((s.drop 6).dropWhile isCondChar) = true)
    (hrep : rep.length ≤ b.length) :
    rep.length + rem.length < s.length := by
  have h6 : 6 ≤ s.length := hlen6 ▸ startsWithL_length_le hsw
  have hsplit : ((s.drop 6).takeWhile isCondChar).length +
      ((s.drop 6).dropWhile isCondChar).length = s.length - 6 := by
    rw [← List.length_append, List.takeWhile_append_dropWhile, List.length_drop]
  have hcond1 : 1 ≤ ((s.drop 6).takeWhile isCondChar).length := by
    cases hc' : (s.drop 6).takeWhile isCondChar with
    | nil => rw [hc'] at hc; simp [List.isEmpty] at hc
    | cons x xs => simp
  have hbr2 : 2 ≤ ((s.drop 6).dropWhile isCondChar).length := startsWithL_length_le hbr
  have hsb' := scanBody_len hsb
  rw [List.length_drop] at hsb'
  omega

theorem matchPos_short (ctx : TemplateContext) : ∀ (s rep rem : Str),
    matchPos ctx s = some (rep, rem) → rep.length + rem.length < s.length := by
  intro s rep rem h
  obtain ⟨hsw, b, hsb, hc, hbr, hrep⟩ := matchPos_inv h
  refine cond_block_short hsw (by decide) hsb hc hbr ?_
  rw [hrep]
  split
  · exact Nat.le_refl _
  · exact Nat.zero_le _

theorem matchInv_short (ctx : TemplateContext) : ∀ (s rep rem : Str),
    matchInv ctx s = some (rep, rem) → rep.length + rem.length < s.length := by
  intro s rep rem h
  obtain ⟨hsw, b, hsb, hc, hbr, hrep⟩ := matchInv_inv h
  refine cond_block_short hsw (by decide) hsb hc hbr ?_
  rw [hrep]
  split
  · exact Nat.zero_le _
  · exact Nat.le_refl _

theorem matchPos_rem (ctx : TemplateContext) : ∀ (s rep rem : Str),
    matchPos ctx s = some (rep, rem) → rem.length < s.length := by
  intro s rep rem h
  have := matchPos_short ctx s rep rem h
  omega

theorem matchInv_rem (ctx : TemplateContext) : ∀ (s rep rem : Str),
    matchInv ctx s = some (rep, rem) → rem.length < s.length := by
  intro s rep rem h
  have := matchInv_short ctx s rep rem h
  omega

theorem matchPos_sw {ctx : TemplateContext} {s : Str}
    (h : (matchPos ctx s).isSome = true) : startsWithL posOpen s = true := by
  cases hm : matchPos ctx s with
  | none => rw [hm] at h; simp at h
  | some pr => exact (matchPos_inv (by rw [hm] : matchPos ctx s = some (pr.1, pr.2))).1

theorem matchInv_sw {ctx : TemplateContext} {s : Str}
    (h : (matchInv ctx s).isSome = true) : startsWithL invOpen s = true := by
  cases hm : matchInv ctx s with
  | none => rw [hm] at h; simp at h
  | some pr => exact (matchInv_inv (by rw [hm] : matchInv ctx s = some (pr.1, pr.2))).1

theorem matchPos_sw_lbrace {ctx : TemplateContext} {s : Str}
    (h : (matchPos ctx s).isSome = true) : startsWithL lbrace2 s = true :=
  startsWithL_trans (by decide) (matchPos_sw h)

theorem matchInv_sw_lbrace {ctx : TemplateContext} {s : Str}
    (h : (matchInv ctx s).isSome = true) : startsWithL lbrace2 s = true :=
  startsWithL_trans (by decide) (matchInv_sw h)

theorem matchPos_trigger (ctx : TemplateContext) : ∀ (c : Char) (r : Str),
    (matchPos ctx (c :: r)).isSome = true → c = '\x7b' := by
  intro c r h
  exact startsWithL_head (matchPos_sw_lbrace h)

theorem matchInv_trigger (ctx : TemplateContext) : ∀ (c : Char) (r : Str),
    (matchInv ctx (c :: r)).isSome = true → c = '\x7b' := by
  intro c r h
  exact startsWithL_head (matchInv_sw_lbrace h)

theorem fLink_inv {ctx : TemplateContext} {s rep rem : Str}
    (h : fLink ctx s = some (rep, rem)) :
    startsWithL linkOpen s = true ∧
      ((s.drop 7).takeWhile isWordChar).isEmpty = false ∧
      startsWithL rbrace2 ((s.drop 7).dropWhile isWordChar) = true ∧
      rep = generateCrossReference ((s.drop 7).takeWhile isWordChar) ctx ∧
      rem = ((s.drop 7).dropWhile isWordChar).drop 2 := by
  simp only [fLink] at h
  split at h
  · next hsw =>
    split at h
    · next hc =>
      injection h with h
      injection h with h1 h2
      simp only [Bool.and_eq_true, Bool.not_eq_true'] at hc
      exact ⟨hsw, hc.1, hc.2, h1.symm, h2.symm⟩
    · cases h
  · cases h

theorem fLink_rem (ctx : TemplateContext) : ∀ (s rep rem : Str),
    fLink ctx s = some (rep, rem) → rem.length < s.length := by
  intro s rep rem h
  obtain ⟨hsw, _, _, _, hrem⟩ := fLink_inv h
  have h7 : 7 ≤ s.length := by
    have := startsWithL_length_le hsw
    simpa using this
  have hdw : ((s.drop 7).dropWhile isWordChar).length ≤ s.length - 7 := by
    have := length_dropWhileL (s.drop 7) isWordChar
    rw [List.length_drop] at this
    exact this
  rw [hrem, List.length_drop]
  omega

theorem fLink_trigger (ctx : TemplateContext) : ∀ (c : Char) (r : Str),
    (fLink ctx (c :: r)).isSome = true → c = '\x7b' := by
  intro c r h
  cases hm : fLink ctx (c :: r) with
  | none => rw [hm] at h; simp at h
  | some pr =>
    have hsw := (fLink_inv (by rw [hm] : fLink ctx (c :: r) = some (pr.1, pr.2))).1
    exact startsWithL_head (@startsWithL_trans lbrace2 linkOpen _ (by decide) hsw)

theorem fLink_sw_lbrace {ctx : TemplateContext} {s : Str}
    (h : (fLink ctx s).isSome = true) : startsWithL lbrace2 s = true := by
  cases hm : fLink ctx s with
  | none => rw [hm] at h; simp at h
  | some pr =>
    have hsw := (fLink_inv (by rw [hm] : fLink ctx s = some (pr.1, pr.2))).1
    exact startsWithL_trans (by decide) hsw

theorem fAgentName_rem (ctx : TemplateContext) : ∀ (s rep rem : Str),
    fAgentName ctx s = some (rep, rem) → rem.length < s.length := by
  intro s rep rem h
  rw [fAgentName] at h
  split at h
  · next hsw =>
    injection h with h
    injection h with h1 h2
    have h14 : 14 ≤ s.length := by simpa using startsWithL_length_le hsw
    rw [← h2, List.length_drop]
    omega
  · cases h

theorem fAgentName_trigger (ctx : TemplateContext) : ∀ (c : Char) (r : Str),
    (fAgentName ctx (c :: r)).isSome = true → c = '\x7b' := by
  intro c r h
  rw [fAgentName] at h
  split at h
  · next hsw => exact startsWithL_head (@startsWithL_trans lbrace2 agentNameTok _ (by decide) hsw)
  · simp at h

theorem fAgentName_sw_lbrace {ctx : TemplateContext} {s : Str}
    (h : (fAgentName ctx s).isSome = true) : startsWithL lbrace2 s = true := by
  rw [fAgentName] at h
  split at h
  · next hsw => exact startsWithL_trans (by decide) hsw
  · simp at h

theorem fRulesPath_rem (ctx : TemplateContext) : ∀ (s rep rem : Str),
    fRulesPath ctx s = some (rep, rem) → rem.length < s.length := by
  intro s rep rem h
  rw [fRulesPath] at h
  split at h
  · next hsw =>
    injection h with h
    injection h with h1 h2
    have h14 : 14 ≤ s.length := by simpa using startsWithL_length_le hsw
    rw [← h2, List.length_drop]
    omega
  · cases h

theorem fRulesPath_trigger (ctx : TemplateContext) : ∀ (c : Char) (r : Str),
    (fRulesPath ctx (c :: r)).isSome = true → c = '\x7b' := by
  intro c r h
  rw [fRulesPath] at h
  split at h
  · next hsw => exact startsWithL_head (@startsWithL_trans lbrace2 rulesPathTok _ (by decide) hsw)
  · simp at h

theorem fRulesPath_sw_lbrace {ctx : TemplateContext} {s : Str}
    (h : (fRulesPath ctx s).isSome = true) : startsWithL lbrace2 s = true := by
  rw [fRulesPath] at h
  split at h
  · next hsw => exact startsWithL_trans (by decide) hsw
  · simp at h

theorem fNewlines_inv {s rep rem : Str} (h : fNewlines s = some (rep, rem)) :
    startsWithL nl3 s = true ∧ rep = nl2 ∧ rem = s.dropWhile (fun c => c == '\n') := by
  rw [fNewlines] at h
  split at h
  · next hsw =>
    injection h with h
    injection h with h1 h2
    exact ⟨hsw, h1.symm, h2.symm⟩
  · cases h

theorem fNewlines_short : ∀ (s rep rem : Str), fNewlines s = some (rep, rem) →
    rep.length + rem.length < s.length := by
  intro s rep rem h
  obtain ⟨hsw, hrep, hrem⟩ := fNewlines_inv h
  obtain ⟨t, rfl⟩ := (startsWithL_iff nl3 s).1 hsw
  have e3 : nl3 = ['\n', '\n', '\n'] := by decide
  have e2 : nl2.length = 2 := by decide
  have hdrop : ((['\n', '\n', '\n'] : Str) ++ t).dropWhile (fun c => c == '\n') =
      t.dropWhile (fun c => c == '\n') := by
    simp [List.dropWhile_cons]
  have hlen : (t.dropWhile (fun c => c == '\n')).length ≤ t.length := length_dropWhileL _ _
  rw [hrep, hrem, e3, hdrop, List.length_append, e2]
  simp only [List.length_cons, List.length_nil]
  omega

theorem fNewlines_rem : ∀ (s rep rem : Str), fNewlines s = some (rep, rem) →
    rem.length < s.length := by
  intro s rep rem h
  have := fNewlines_short s rep rem h
  omega

theorem fNewlines_sw {s : Str} (h : (fNewlines s).isSome = true) :
    startsWithL nl3 s = true := by
  rw [fNewlines] at h
  split at h
  · assumption
  · simp at h

/-! ### The conditional loop: length decrease and fixed point -/

theorem rscan_length_le {f : Str → Option (Str × Str)}
    (hshort : ∀ s rep rem, f s = some (rep, rem) → rep.length + rem.length < s.length)
    (s : Str) :
    (rscan f s).length ≤ s.length ∧ ((rscan f s).length = s.length → rscan f s = s) :=
  replaceScan_length hshort s.length s (Nat.le_refl _)

theorem onePass_le (ctx : TemplateContext) (s : Str) :
    (onePass ctx s).length ≤ s.length := by
  have h1 := (rscan_length_le (matchPos_short ctx) s).1
  have h2 := (rscan_length_le (matchInv_short ctx) (rscan (matchPos ctx) s)).1
  exact Nat.le_trans h2 h1

theorem onePass_lt {ctx : TemplateContext} {s : Str} (h : onePass ctx s ≠ s) :
    (onePass ctx s).length < s.length := by
  obtain ⟨hp1, hp2⟩ := rscan_length_le (matchPos_short ctx) s
  obtain ⟨hi1, hi2⟩ := rscan_length_le (matchInv_short ctx) (rscan (matchPos ctx) s)
  have hop : onePass ctx s = rscan (matchInv ctx) (rscan (matchPos ctx) s) := rfl
  rcases Nat.lt_or_ge (onePass ctx s).length s.length with hlt | hge
  · exact hlt
  · exfalso
    have heq : (rscan (matchInv ctx) (rscan (matchPos ctx) s)).length = s.length := by
      rw [← hop]
      exact Nat.le_antisymm (onePass_le ctx s) hge
    have hpos : (rscan (matchPos ctx) s).length = s.length :=
      Nat.le_antisymm hp1 (heq ▸ hi1)
    have hpeq : rscan (matchPos ctx) s = s := hp2 hpos
    have hieq := hi2 (by rw [heq, hpos])
    exact h (by rw [hop, hieq, hpeq])

theorem condLoop_of_fix {ctx : TemplateContext} {s : Str} (h : onePass ctx s = s) :
    ∀ fuel, condLoop ctx fuel s = s := by
  intro fuel
  cases fuel with
  | zero => rfl
  | succ k => simp [condLoop, h]

theorem condLoop_fix (ctx : TemplateContext) :
    ∀ (fuel : Nat) (s : Str), s.length < fuel →
      onePass ctx (condLoop ctx fuel s) = condLoop ctx fuel s := by
  intro fuel
  induction fuel with
  | zero => intro s hs; omega
  | succ k ih =>
    intro s hs
    rw [condLoop]
    split
    · next heq => exact heq
    · next hne =>
      apply ih
      have := onePass_lt hne
      omega

theorem processConditionals_fix (s : Str) (ctx : TemplateContext) :
    onePass ctx (processConditionals s ctx) = processConditionals s ctx :=
  condLoop_fix ctx (s.length + 1) s (Nat.lt_succ_self _)

/-! ### Identity lemmas for delimiter-free text -/

theorem posPass_id {ctx : TemplateContext} {s : Str} (h : hasSub lbrace2 s = false) :
    rscan (matchPos ctx) s = s :=
  rscan_id_of_no_pat (fun _ h' => matchPos_sw_lbrace h') h

theorem invPass_id {ctx : TemplateContext} {s : Str} (h : hasSub lbrace2 s = false) :
    rscan (matchInv ctx) s = s :=
  rscan_id_of_no_pat (fun _ h' => matchInv_sw_lbrace h') h

theorem onePass_id {ctx : TemplateContext} {s : Str} (h : hasSub lbrace2 s = false) :
    onePass ctx s = s := by
  rw [onePass, posPass_id h, invPass_id h]

theorem processConditionals_id {s : Str} {ctx : TemplateContext}
    (h : hasSub lbrace2 s = false) : processConditionals s ctx = s :=
  condLoop_of_fix (onePass_id h) _

theorem processVariables_id {s : Str} {ctx : TemplateContext}
    (h : hasSub lbrace2 s = false) : processVariables s ctx = s := by
  rw [processVariables,
    rscan_id_of_no_pat (fun _ h' => fLink_sw_lbrace h') h,
    rscan_id_of_no_pat (fun _ h' => fAgentName_sw_lbrace h') h,
    rscan_id_of_no_pat (fun _ h' => fRulesPath_sw_lbrace h') h]

theorem collapseNewlines_id {s : Str} (h : hasSub nl3 s = false) :
    collapseNewlines s = s :=
  rscan_id_of_no_pat (fun _ h' => fNewlines_sw h') h

/-! ### The blank-line collapse never leaves three consecutive newlines -/

theorem leadNl_nl (r : Str) : leadNl ('\n' :: r) = leadNl r + 1 := by
  simp [leadNl]

theorem leadNl_ne {c : Char} (h : ¬ c = '\n') (r : Str) : leadNl (c :: r) = 0 := by
  simp [leadNl, h]

theorem sw_replicate_nl (k : Nat) : ∀ (s : Str),
    startsWithL (List.replicate k '\n') s = true ↔ k ≤ leadNl s := by
  induction k with
  | zero => intro s; simp [startsWithL]
  | succ n ih =>
    intro s
    cases s with
    | nil =>
      simp only [List.replicate, startsWithL, leadNl, Bool.false_eq_true, false_iff]
      omega
    | cons c r =>
      simp only [List.replicate, startsWithL, Bool.and_eq_true, beq_iff_eq, ih]
      by_cases hc : c = '\n'
      · subst hc
        rw [leadNl_nl]
        constructor
        · rintro ⟨-, h⟩; omega
        · intro h; exact ⟨rfl, by omega⟩
      · rw [leadNl_ne hc]
        constructor
        · rintro ⟨h, -⟩; exact absurd h.symm hc
        · intro h; omega

theorem sw_nl3_iff (s : Str) : startsWithL nl3 s = true ↔ 3 ≤ leadNl s := by
  have e3 : nl3 = List.replicate 3 '\n' := by decide
  rw [e3]
  exact sw_replicate_nl 3 s

theorem leadNl_le_two {s : Str} (h : startsWithL nl3 s = false) : leadNl s ≤ 2 := by
  by_contra hlt
  rw [(sw_nl3_iff s).2 (by omega)] at h
  cases h

theorem sw_nl3_false_of {s : Str} (h : leadNl s ≤ 2) : startsWithL nl3 s = false := by
  cases hsw : startsWithL nl3 s with
  | false => rfl
  | true => have := (sw_nl3_iff s).1 hsw; omega

theorem leadNl_dropWhile (s : Str) :
    leadNl (s.dropWhile (fun c => c == '\n')) = 0 := by
  induction s with
  | nil => rfl
  | cons c r ih =>
    rw [List.dropWhile_cons]
    by_cases hc : c = '\n'
    · simp only [hc]
      simpa using ih
    · have hcb : (c == '\n') = false := by simp [hc]
      simp only [hcb, Bool.false_eq_true, if_false]
      exact leadNl_ne hc r

theorem collapse_aux : ∀ (fuel : Nat) (s : Str), s.length ≤ fuel →
    hasSub nl3 (replaceScan fNewlines fuel s) = false ∧
      leadNl (replaceScan fNewlines fuel s) ≤ min (leadNl s) 2 := by
  intro fuel
  induction fuel with
  | zero =>
    intro s hs
    have hnil : s = [] := List.eq_nil_of_length_eq_zero (Nat.le_zero.1 hs)
    subst hnil
    exact ⟨rfl, by simp [leadNl]⟩
  | succ k ih =>
    intro s hs
    cases s with
    | nil => exact ⟨rfl, by simp [leadNl]⟩
    | cons c rest =>
      cases hf : fNewlines (c :: rest) with
      | none =>
        have hsw : startsWithL nl3 (c :: rest) = false := by
          rw [fNewlines] at hf
          split at hf
          · cases hf
          · next hns => exact Bool.eq_false_iff.2 hns
        rw [replaceScan_step_none hf]
        obtain ⟨ihns, ihlead⟩ := ih rest (Nat.le_of_succ_le_succ hs)
        have hle2 := leadNl_le_two hsw
        have hmin : leadNl (replaceScan fNewlines k rest) ≤ leadNl rest ∧
            leadNl (replaceScan fNewlines k rest) ≤ 2 := by
          constructor <;> omega
        by_cases hcn : c = '\n'
        · subst hcn
          rw [leadNl_nl] at hle2
          constructor
          · rw [hasSub_cons, Bool.or_eq_false_iff]
            refine ⟨sw_nl3_false_of ?_, ihns⟩
            rw [leadNl_nl]
            omega
          · rw [leadNl_nl, leadNl_nl]
            omega
        · constructor
          · rw [hasSub_cons, Bool.or_eq_false_iff]
            refine ⟨sw_nl3_false_of ?_, ihns⟩
            rw [leadNl_ne hcn]
            omega
          · rw [leadNl_ne hcn, leadNl_ne hcn]
            omega
      | some pr =>
        obtain ⟨rep, rem⟩ := pr
        obtain ⟨hsw, hrep, hrem⟩ := fNewlines_inv hf
        have hlt : rem.length < (c :: rest).length := fNewlines_rem _ _ _ hf
        have hkle : rem.length ≤ k := by
          simp only [List.length_cons] at hlt hs
          omega
        obtain ⟨ihns, ihlead⟩ := ih rem hkle
        have hlead0 : leadNl rem = 0 := by rw [hrem]; exact leadNl_dropWhile _
        have hT0 : leadNl (replaceScan fNewlines k rem) = 0 := by
          have := ihlead
          rw [hlead0] at this
          omega
        have h3 : 3 ≤ leadNl (c :: rest) := (sw_nl3_iff _).1 hsw
        have e2 : rep = ['\n', '\n'] := by rw [hrep]; decide
        rw [replaceScan_step_some hf, e2]
        constructor
        · rw [List.cons_append, List.cons_append, List.nil_append,
            hasSub_cons, hasSub_cons, Bool.or_eq_false_iff, Bool.or_eq_false_iff]
          refine ⟨sw_nl3_false_of ?_, sw_nl3_false_of ?_, ihns⟩
          · rw [leadNl_nl, leadNl_nl]
            omega
          · rw [leadNl_nl]
            omega
        · rw [List.cons_append, List.cons_append, List.nil_append,
            leadNl_nl, leadNl_nl]
          omega

theorem collapse_noTriple (s : Str) : hasSub nl3 (collapseNewlines s) = false :=
  (collapse_aux s.length s (Nat.le_refl _)).1

theorem processTemplate_noTriple (s : Str) (ctx : TemplateContext) :
    hasSub nl3 (processTemplate s ctx) = false :=
  collapse_noTriple _

/-! ### Resolving an explicit conditional block -/

theorem takeWhile_stop {p : Char → Bool} {c : Char} (h : p c = false) (l : Str) :
    (c :: l).takeWhile p = [] := by
  simp [List.takeWhile_cons, h]

theorem dropWhile_stop {p : Char → Bool} {c : Char} (h : p c = false) (l : Str) :
    (c :: l).dropWhile p = c :: l := by
  simp [List.dropWhile_cons, h]

theorem takeWhile_append_all {p : Char → Bool} :
    ∀ (a l : Str), (∀ c ∈ a, p c = true) → (a ++ l).takeWhile p = a ++ l.takeWhile p := by
  intro a
  induction a with
  | nil => intro l _; rfl
  | cons c a' ih =>
    intro l ha
    rw [List.cons_append, List.takeWhile_cons, ha c (List.mem_cons_self c a'), if_pos rfl,
      ih l (fun d hd => ha d (List.mem_cons_of_mem c hd)), List.cons_append]

theorem dropWhile_append_all {p : Char → Bool} :
    ∀ (a l : Str), (∀ c ∈ a, p c = true) → (a ++ l).dropWhile p = l.dropWhile p := by
  intro a
  induction a with
  | nil => intro l _; rfl
  | cons c a' ih =>
    intro l ha
    rw [List.cons_append, List.dropWhile_cons, ha c (List.mem_cons_self c a'), if_pos rfl,
      ih l (fun d hd => ha d (List.mem_cons_of_mem c hd))]

/-- A text that contains no `{{` and is followed by a continuation that starts
with `{{` cannot itself start a token of the form `{{x...` with `x ≠ {` unless
it is empty: the token's first two braces would have to sit inside the text
(contradicting `{{`-freedom) or straddle the boundary (forcing the third token
character to be the continuation's `{`). -/
theorem sw_pat_append_block {body cont : Str} {e : Char} {p3 : Str}
    (hb : hasSub lbrace2 body = false) (he : e ≠ '\x7b')
    (hcont : startsWithL lbrace2 cont = true)
    (hsw : startsWithL ('\x7b' :: '\x7b' :: e :: p3) (body ++ cont) = true) :
    body = [] := by
  cases body with
  | nil => rfl
  | cons c1 b1 =>
    cases b1 with
    | nil =>
      have e2 : lbrace2 = '\x7b' :: '\x7b' :: [] := by decide
      rw [e2] at hcont
      obtain ⟨t, rfl⟩ := (startsWithL_iff _ cont).1 hcont
      simp only [List.cons_append, List.nil_append, startsWithL, Bool.and_eq_true,
        beq_iff_eq] at hsw
      exact absurd hsw.2.2.1 he
    | cons c2 b2 =>
      simp only [List.cons_append, startsWithL, Bool.and_eq_true, beq_iff_eq] at hsw
      have hswb : startsWithL lbrace2 (c1 :: c2 :: b2) = true := by
        have e2 : lbrace2 = '\x7b' :: '\x7b' :: [] := by decide
        rw [e2]
        simp only [startsWithL, Bool.and_eq_true, beq_iff_eq]
        exact ⟨hsw.1, hsw.2.1, trivial⟩
      rw [startsWithL_eq_false_of_hasSub hb] at hswb
      cases hswb

theorem replaceScan_skip_body {f : Str → Option (Str × Str)} {pat : Str} {e : Char} {p3 : Str}
    (htrig : ∀ s', (f s').isSome = true → startsWithL pat s' = true)
    (hpat : pat = '\x7b' :: '\x7b' :: e :: p3) (he : e ≠ '\x7b') :
    ∀ (body : Str) (fuel : Nat) (cont : Str), hasSub lbrace2 body = false →
      startsWithL lbrace2 cont = true →
      replaceScan f (body.length + fuel) (body ++ cont) = body ++ replaceScan f fuel cont := by
  intro body
  induction body with
  | nil =>
    intro fuel cont _ _
    rw [List.length_nil, Nat.zero_add]
    rfl
  | cons c b' ih =>
    intro fuel cont hb hcont
    have hf : f (c :: (b' ++ cont)) = none := by
      cases hfs : f (c :: (b' ++ cont)) with
      | none => rfl
      | some pr =>
        have hsw := htrig (c :: (b' ++ cont)) (by rw [hfs]; rfl)
        rw [hpat] at hsw
        have hnil := sw_pat_append_block hb he hcont hsw
        cases hnil
    have harr : (c :: b').length + fuel = (b'.length + fuel) + 1 := by
      simp only [List.length_cons]
      omega
    rw [harr, List.cons_append, replaceScan_step_none hf,
      ih fuel cont (hasSub_tail hb) hcont, List.cons_append]

theorem rscan_skip_body {f : Str → Option (Str × Str)} {pat : Str} {e : Char} {p3 : Str}
    (htrig : ∀ s', (f s').isSome = true → startsWithL pat s' = true)
    (hpat : pat = '\x7b' :: '\x7b' :: e :: p3) (he : e ≠ '\x7b')
    {body cont : Str} (hb : hasSub lbrace2 body = false)
    (hcont : startsWithL lbrace2 cont = true) :
    rscan f (body ++ cont) = body ++ rscan f cont := by
  rw [rscan, List.length_append, replaceScan_skip_body htrig hpat he body cont.length cont hb hcont,
    rscan]

theorem scanBody_block : ∀ (body rest : Str), hasSub lbrace2 body = false →
    scanBody (body ++ (closeTok ++ rest)) = some (body, rest) := by
  intro body
  induction body with
  | nil =>
    intro rest _
    rw [List.nil_append]
    have ect : closeTok = '\x7b' :: "\x7b/if\x7d\x7d".data := by decide
    have h1 : startsWithL closeTok ('\x7b' :: ("\x7b/if\x7d\x7d".data ++ rest)) = true := by
      rw [← List.cons_append, ← ect]
      exact startsWithL_append_self _ _
    have h2 : ('\x7b' :: ("\x7b/if\x7d\x7d".data ++ rest)).drop 7 = rest := by
      rw [← List.cons_append, ← ect]
      have h7 : closeTok.length = 7 := by decide
      rw [← h7, List.drop_left]
    rw [ect, List.cons_append, scanBody]
    rw [← List.cons_append, ← ect] at h1 h2 ⊢
    rw [ect, List.cons_append] at h1 h2 ⊢
    simp only [h1, if_true, h2]
  | cons c b' ih =>
    intro rest hb
    have hcont : startsWithL lbrace2 (closeTok ++ rest) = true :=
      startsWithL_trans (by decide) (startsWithL_append_self closeTok rest)
    have hclose : startsWithL closeTok (c :: (b' ++ (closeTok ++ rest))) = false := by
      cases hcl : startsWithL closeTok (c :: (b' ++ (closeTok ++ rest))) with
      | false => rfl
      | true =>
        have ect : closeTok = '\x7b' :: '\x7b' :: '/' :: "if\x7d\x7d".data := by decide
        rw [ect] at hcl
        have hnil := sw_pat_append_block hb (by decide) hcont hcl
        cases hnil
    have hpos : startsWithL posOpen (c :: (b' ++ (closeTok ++ rest))) = false := by
      cases hcl : startsWithL posOpen (c :: (b' ++ (closeTok ++ rest))) with
      | false => rfl
      | true =>
        have ep : posOpen = '\x7b' :: '\x7b' :: '#' :: "if ".data := by decide
        rw [ep] at hcl
        have hnil := sw_pat_append_block hb (by decide) hcont hcl
        cases hnil
    have hinv : startsWithL invOpen (c :: (b' ++ (closeTok ++ rest))) = false := by
      cases hcl : startsWithL invOpen (c :: (b' ++ (closeTok ++ rest))) with
      | false => rfl
      | true =>
        have ei : invOpen = '\x7b' :: '\x7b' :: '^' :: "if ".data := by decide
        rw [ei] at hcl
        have hnil := sw_pat_append_block hb (by decide) hcont hcl
        cases hnil
    rw [List.cons_append, scanBody]
    simp only [hclose, hpos, hinv, Bool.or_self, Bool.false_eq_true, if_false,
      ih rest (hasSub_tail hb)]
    rfl

theorem cond_isEmpty_false {cname : Str} (h : cname ≠ []) : cname.isEmpty = false := by
  cases cname with
  | nil => exact absurd rfl h
  | cons a b => rfl

theorem matchPos_block (ctx : TemplateContext) (cname body rest : Str)
    (hcn : cname ≠ []) (hcc : ∀ c ∈ cname, isCondChar c = true)
    (hb : hasSub lbrace2 body = false) :
    matchPos ctx (posOpen ++ (cname ++ (rbrace2 ++ (body ++ (closeTok ++ rest))))) =
      some ((if evaluateCondition cname ctx then body else []), rest) := by
  have hsw : startsWithL posOpen
      (posOpen ++ (cname ++ (rbrace2 ++ (body ++ (closeTok ++ rest))))) = true :=
    startsWithL_append_self _ _
  have hdrop6 : (posOpen ++ (cname ++ (rbrace2 ++ (body ++ (closeTok ++ rest))))).drop 6 =
      cname ++ (rbrace2 ++ (body ++ (closeTok ++ rest))) := by
    have h6 : posOpen.length = 6 := by decide
    rw [← h6, List.drop_left]
  have hrb : isCondChar '\x7d' = false := by decide
  have erb : rbrace2 = '\x7d' :: ('\x7d' :: []) := by decide
  have htk : (cname ++ (rbrace2 ++ (body ++ (closeTok ++ rest)))).takeWhile isCondChar =
      cname := by
    rw [takeWhile_append_all cname _ hcc, erb, List.cons_append, takeWhile_stop hrb,
      List.append_nil]
  have hdw : (cname ++ (rbrace2 ++ (body ++ (closeTok ++ rest)))).dropWhile isCondChar =
      rbrace2 ++ (body ++ (closeTok ++ rest)) := by
    rw [dropWhile_append_all cname _ hcc, erb, List.cons_append, dropWhile_stop hrb,
      ← List.cons_append, ← erb]
  have hswrb : startsWithL rbrace2 (rbrace2 ++ (body ++ (closeTok ++ rest))) = true :=
    startsWithL_append_self _ _
  have hdrop2 : (rbrace2 ++ (body ++ (closeTok ++ rest))).drop 2 =
      body ++ (closeTok ++ rest) := by
    have h2 : rbrace2.length = 2 := by decide
    rw [← h2, List.drop_left]
  have hsb : scanBody ((rbrace2 ++ (body ++ (closeTok ++ rest))).drop 2) =
      some (body, rest) := by
    rw [hdrop2]
    exact scanBody_block body rest hb
  simp only [matchPos, hsw, if_true, hdrop6, htk, hdw, cond_isEmpty_false hcn,
    Bool.not_false, hswrb, Bool.and_self, hsb]

theorem matchInv_block (ctx : TemplateContext) (cname body rest : Str)
    (hcn : cname ≠ []) (hcc : ∀ c ∈ cname, isCondChar c = true)
    (hb : hasSub lbrace2 body = false) :
    matchInv ctx (invOpen ++ (cname ++ (rbrace2 ++ (body ++ (closeTok ++ rest))))) =
      some ((if evaluateCondition cname ctx then [] else body), rest) := by
  have hsw : startsWithL invOpen
      (invOpen ++ (cname ++ (rbrace2 ++ (body ++ (closeTok ++ rest))))) = true :=
    startsWithL_append_self _ _
  have hdrop6 : (invOpen ++ (cname ++ (rbrace2 ++ (body ++ (closeTok ++ rest))))).drop 6 =
      cname ++ (rbrace2 ++ (body ++ (closeTok ++ rest))) := by
    have h6 : invOpen.length = 6 := by decide
    rw [← h6, List.drop_left]
  have hrb : isCondChar '\x7d' = false := by decide
  have erb : rbrace2 = '\x7d' :: ('\x7d' :: []) := by decide
  have htk : (cname ++ (rbrace2 ++ (body ++ (closeTok ++ rest)))).takeWhile isCondChar =
      cname := by
    rw [takeWhile_append_all cname _ hcc, erb, List.cons_append, takeWhile_stop hrb,
      List.append_nil]
  have hdw : (cname ++ (rbrace2 ++ (body ++ (closeTok ++ rest)))).dropWhile isCondChar =
      rbrace2 ++ (body ++ (closeTok ++ rest)) := by
    rw [dropWhile_append_all cname _ hcc, erb, List.cons_append, dropWhile_stop hrb,
      ← List.cons_append, ← erb]
  have hswrb : startsWithL rbrace2 (rbrace2 ++ (body ++ (closeTok ++ rest))) = true :=
    startsWithL_append_self _ _
  have hdrop2 : (rbrace2 ++ (body ++ (closeTok ++ rest))).drop 2 =
      body ++ (closeTok ++ rest) := by
    have h2 : rbrace2.length = 2 := by decide
    rw [← h2, List.drop_left]
  have hsb : scanBody ((rbrace2 ++ (body ++ (closeTok ++ rest))).drop 2) =
      some (body, rest) := by
    rw [hdrop2]
    exact scanBody_block body rest hb
  simp only [matchInv, hsw, if_true, hdrop6, htk, hdw, cond_isEmpty_false hcn,
    Bool.not_false, hswrb, Bool.and_self, hsb]

/-! ### Characterizations of the condition evaluator -/

theorem evaluateCondition_agentPre (ctx : TemplateContext) (name : Str)
    (hne : name ≠ []) (hw : ∀ c ∈ name, isWordChar c = true) :
    evaluateCondition (agentPre ++ name) ctx = (ctx.agent.name == name) := by
  have hfive : ∀ lit : Str, startsWithL agentPre lit = false → ¬ (agentPre ++ name = lit) := by
    intro lit hlit h
    rw [← h, startsWithL_append_self] at hlit
    cases hlit
  have hd6 : (agentPre ++ name).drop 6 = name := by
    have h6 : agentPre.length = 6 := by decide
    rw [← h6, List.drop_left]
  have hcond : (startsWithL agentPre (agentPre ++ name) &&
      !((agentPre ++ name).drop 6).isEmpty &&
      ((agentPre ++ name).drop 6).all isWordChar) = true := by
    rw [hd6, startsWithL_append_self, cond_isEmpty_false hne]
    simp only [Bool.not_false, Bool.true_and, List.all_eq_true]
    exact hw
  have hmac : matchAgentCond (agentPre ++ name) = some name := by
    rw [matchAgentCond, if_pos hcond, hd6]
  simp only [evaluateCondition, hmac]
  rw [if_neg (hfive _ (by decide)), if_neg (hfive _ (by decide)),
    if_neg (hfive _ (by decide)), if_neg (hfive _ (by decide)),
    if_neg (hfive _ (by decide))]

theorem evaluateCondition_agentsMd_false (ctx : TemplateContext) :
    evaluateCondition "agent:agents-md".data ctx = false := by
  simp only [evaluateCondition,
    (by decide : matchAgentCond "agent:agents-md".data = none)]
  rw [if_neg (by decide), if_neg (by decide), if_neg (by decide), if_neg (by decide),
    if_neg (by decide)]

theorem evaluateCondition_unknown (cond : Str) (ctx : TemplateContext)
    (hk : cond ∉ knownConds) (ha : isAgentForm cond = false) :
    evaluateCondition cond ctx = false := by
  have h1 : ¬ (cond = "development-skills".data) := fun h => hk (by rw [h]; simp [knownConds])
  have h2 : ¬ (cond = "has-sandbox".data) := fun h => hk (by rw [h]; simp [knownConds])
  have h3 : ¬ (cond = "multi-file-rules".data) := fun h => hk (by rw [h]; simp [knownConds])
  have h4 : ¬ (cond = "supports-slash-commands".data) :=
    fun h => hk (by rw [h]; simp [knownConds])
  have h5 : ¬ (cond = "supports-agents-md".data) := fun h => hk (by rw [h]; simp [knownConds])
  have hmac : matchAgentCond cond = none := by
    cases hm : matchAgentCond cond with
    | none => rfl
    | some nm =>
      rw [matchAgentCond] at hm
      split at hm
      · next hc =>
        simp only [Bool.and_eq_true, Bool.not_eq_true'] at hc
        have hform : isAgentForm cond = true := by
          rw [isAgentForm]
          simp only [Bool.and_eq_true, Bool.not_eq_true']
          refine ⟨⟨hc.1.1, hc.1.2⟩, ?_⟩
          rw [List.all_eq_true] at hc ⊢
          intro x hx
          have hwx := hc.2 x hx
          simp [isCondChar, hwx]
        rw [hform] at ha
        cases ha
      · cases hm
  simp only [evaluateCondition, hmac]
  rw [if_neg h1, if_neg h2, if_neg h3, if_neg h4, if_neg h5]

theorem evaluateCondition_dev (ctx : TemplateContext) :
    evaluateCondition dsName ctx = ctx.hasDevelopmentSkills := by
  rw [evaluateCondition, if_pos (by decide : dsName = "development-skills".data)]

/-! ### Characters of generated cross-references -/

theorem wordChar_ne_lbrace {c : Char} (h : isWordChar c = true) : c ≠ '\x7b' :=
  fun he => absurd (he ▸ h) (by decide)

theorem gcr_no_lbrace (agent : Agent) (rid : Str)
    (hw : ∀ c ∈ rid, isWordChar c = true) :
    ∀ c ∈ generateCrossReference rid (mkCliContext agent), c ≠ '\x7b' := by
  have hrid : ∀ c ∈ rid, c ≠ '\x7b' := fun c hc => wordChar_ne_lbrace (hw c hc)
  cases agent <;>
    simp only [generateCrossReference, mkCliContext, getRulesPath,
      List.forall_mem_append, List.forall_mem_cons] <;>
    first
      | exact ⟨⟨⟨by decide, by decide⟩, by decide, hrid⟩, by decide⟩
      | exact ⟨⟨by decide, hrid⟩, by decide⟩
      | exact ⟨hrid, by decide⟩

/-! ### Rendering a development-skills conditional block -/

theorem condLoop_succ (ctx : TemplateContext) (k : Nat) (s : Str) :
    condLoop ctx (k + 1) s =
      if onePass ctx s = s then s else condLoop ctx k (onePass ctx s) := rfl

theorem matchPos_none {ctx : TemplateContext} {s : Str}
    (h : startsWithL posOpen s = false) : matchPos ctx s = none := by
  cases hm : matchPos ctx s with
  | none => rfl
  | some pr =>
    have hsw := @matchPos_sw ctx s (by rw [hm]; rfl)
    rw [h] at hsw
    exact Bool.noConfusion hsw

theorem posPass_devPos (ctx : TemplateContext) (body : Str)
    (hb : hasSub lbrace2 body = false) :
    rscan (matchPos ctx) (devPosOpen ++ (body ++ closeTok)) =
      (if evaluateCondition dsName ctx then body else []) := by
  have eshape : devPosOpen ++ (body ++ closeTok) =
      posOpen ++ (dsName ++ (rbrace2 ++ (body ++ (closeTok ++ [])))) := by
    rw [(by decide : devPosOpen = (posOpen ++ dsName) ++ rbrace2)]
    simp [List.append_assoc]
  have hm := matchPos_block ctx dsName body [] (by decide) (by decide) hb
  have econs : posOpen ++ (dsName ++ (rbrace2 ++ (body ++ (closeTok ++ [])))) =
      '\x7b' :: ("\x7b#if ".data ++ (dsName ++ (rbrace2 ++ (body ++ (closeTok ++ []))))) := by
    rw [(by decide : posOpen = '\x7b' :: "\x7b#if ".data), List.cons_append]
  rw [eshape, econs]
  rw [econs] at hm
  rw [rscan_cons_some (matchPos_rem ctx) hm, rscan_nil, List.append_nil]

theorem processConditionals_devPos (ctx : TemplateContext) (body : Str)
    (hb : hasSub lbrace2 body = false) :
    processConditionals (devPosOpen ++ (body ++ closeTok)) ctx =
      (if evaluateCondition dsName ctx then body else []) := by
  have hbrep : hasSub lbrace2 (if evaluateCondition dsName ctx then body else []) = false := by
    split
    · exact hb
    · rfl
  have h1 : onePass ctx (devPosOpen ++ (body ++ closeTok)) =
      (if evaluateCondition dsName ctx then body else []) := by
    rw [onePass, posPass_devPos ctx body hb, invPass_id hbrep]
  have hleb : (if evaluateCondition dsName ctx then body else []).length ≤ body.length := by
    split
    · exact Nat.le_refl _
    · exact Nat.zero_le _
  have hlen : (if evaluateCondition dsName ctx then body else []).length <
      (devPosOpen ++ (body ++ closeTok)).length := by
    simp only [List.length_append]
    have e1 : devPosOpen.length = 26 := by decide
    have e2 : closeTok.length = 7 := by decide
    omega
  have hne : onePass ctx (devPosOpen ++ (body ++ closeTok)) ≠ devPosOpen ++ (body ++ closeTok) := by
    rw [h1]
    intro he
    rw [he] at hlen
    omega
  rw [processConditionals, condLoop_succ, if_neg hne, h1]
  exact condLoop_of_fix (onePass_id hbrep) _

theorem posPass_devInv (ctx : TemplateContext) (body : Str)
    (hb : hasSub lbrace2 body = false) :
    rscan (matchPos ctx) (devInvOpen ++ (body ++ closeTok)) =
      devInvOpen ++ (body ++ closeTok) := by
  have hm0 : matchPos ctx (devInvOpen ++ (body ++ closeTok)) = none :=
    matchPos_none (startsWithL_append_of_ne (body ++ closeTok) (by decide) (by decide))
  have hm1 : matchPos ctx (('\x7b' :: "^if development-skills\x7d\x7d".data) ++
      (body ++ closeTok)) = none :=
    matchPos_none (startsWithL_append_of_ne (body ++ closeTok) (by decide) (by decide))
  have e2 : devInvOpen = '\x7b' :: (('\x7b' :: "^if development-skills\x7d\x7d".data)) := by
    decide
  rw [e2, List.cons_append] at hm0 ⊢
  rw [List.cons_append] at hm0 ⊢
  rw [List.cons_append] at hm1
  rw [rscan_cons_none hm0, rscan_cons_none hm1,
    rscan_append_free (matchPos_trigger ctx) (by decide),
    rscan_skip_body (fun _ h => matchPos_sw h)
      (by decide : posOpen = '\x7b' :: '\x7b' :: '#' :: "if ".data) (by decide) hb
      (by decide : startsWithL lbrace2 closeTok = true),
    rscan_id_of_no_pat (fun _ h => matchPos_sw h)
      (by decide : hasSub posOpen closeTok = false)]

theorem invPass_devInv (ctx : TemplateContext) (body : Str)
    (hb : hasSub lbrace2 body = false) :
    rscan (matchInv ctx) (devInvOpen ++ (body ++ closeTok)) =
      (if evaluateCondition dsName ctx then [] else body) := by
  have eshape : devInvOpen ++ (body ++ closeTok) =
      invOpen ++ (dsName ++ (rbrace2 ++ (body ++ (closeTok ++ [])))) := by
    rw [(by decide : devInvOpen = (invOpen ++ dsName) ++ rbrace2)]
    simp [List.append_assoc]
  have hm := matchInv_block ctx dsName body [] (by decide) (by decide) hb
  have econs : invOpen ++ (dsName ++ (rbrace2 ++ (body ++ (closeTok ++ [])))) =
      '\x7b' :: ("\x7b^if ".data ++ (dsName ++ (rbrace2 ++ (body ++ (closeTok ++ []))))) := by
    rw [(by decide : invOpen = '\x7b' :: "\x7b^if ".data), List.cons_append]
  rw [eshape, econs]
  rw [econs] at hm
  rw [rscan_cons_some (matchInv_rem ctx) hm, rscan_nil, List.append_nil]

theorem processConditionals_devInv (ctx : TemplateContext) (body : Str)
    (hb : hasSub lbrace2 body = false) :
    processConditionals (devInvOpen ++ (body ++ closeTok)) ctx =
      (if evaluateCondition dsName ctx then [] else body) := by
  have hbrep : hasSub lbrace2 (if evaluateCondition dsName ctx then [] else body) = false := by
    split
    · rfl
    · exact hb
  have h1 : onePass ctx (devInvOpen ++ (body ++ closeTok)) =
      (if evaluateCondition dsName ctx then [] else body) := by
    rw [onePass, posPass_devInv ctx body hb, invPass_devInv ctx body hb]
  have hleb : (if evaluateCondition dsName ctx then [] else body).length ≤ body.length := by
    split
    · exact Nat.zero_le _
    · exact Nat.le_refl _
  have hlen : (if evaluateCondition dsName ctx then [] else body).length <
      (devInvOpen ++ (body ++ closeTok)).length := by
    simp only [List.length_append]
    have e1 : devInvOpen.length = 26 := by decide
    have e2 : closeTok.length = 7 := by decide
    omega
  have hne : onePass ctx (devInvOpen ++ (body ++ closeTok)) ≠ devInvOpen ++ (body ++ closeTok) := by
    rw [h1]
    intro he
    rw [he] at hlen
    omega
  rw [processConditionals, condLoop_succ, if_neg hne, h1]
  exact condLoop_of_fix (onePass_id hbrep) _

/-! ### Substituting an embedded LINK token -/

theorem fLink_token (ctx : TemplateContext) (rid post : Str)
    (hne : rid ≠ []) (hw : ∀ c ∈ rid, isWordChar c = true) :
    fLink ctx (linkOpen ++ (rid ++ (rbrace2 ++ post))) =
      some (generateCrossReference rid ctx, post) := by
  have hsw : startsWithL linkOpen (linkOpen ++ (rid ++ (rbrace2 ++ post))) = true :=
    startsWithL_append_self _ _
  have hdrop7 : (linkOpen ++ (rid ++ (rbrace2 ++ post))).drop 7 = rid ++ (rbrace2 ++ post) := by
    have h7 : linkOpen.length = 7 := by decide
    rw [← h7, List.drop_left]
  have hrb : isWordChar '\x7d' = false := by decide
  have erb : rbrace2 = '\x7d' :: ('\x7d' :: []) := by decide
  have htk : (rid ++ (rbrace2 ++ post)).takeWhile isWordChar = rid := by
    rw [takeWhile_append_all rid _ hw, erb, List.cons_append, takeWhile_stop hrb,
      List.append_nil]
  have hdw : (rid ++ (rbrace2 ++ post)).dropWhile isWordChar = rbrace2 ++ post := by
    rw [dropWhile_append_all rid _ hw, erb, List.cons_append, dropWhile_stop hrb,
      ← List.cons_append, ← erb]
  have hswrb : startsWithL rbrace2 (rbrace2 ++ post) = true := startsWithL_append_self _ _
  have hdrop2 : (rbrace2 ++ post).drop 2 = post := by
    have h2 : rbrace2.length = 2 := by decide
    rw [← h2, List.drop_left]
  simp only [fLink, hsw, if_true, hdrop7, htk, hdw, cond_isEmpty_false hne,
    Bool.not_false, hswrb, Bool.and_self, hdrop2]

theorem processVariables_link (agent : Agent) (rid pre post : Str)
    (hne : rid ≠ []) (hw : ∀ c ∈ rid, isWordChar c = true)
    (hpre : ∀ c ∈ pre, c ≠ '\x7b') (hpost : ∀ c ∈ post, c ≠ '\x7b') :
    processVariables (pre ++ (linkOpen ++ (rid ++ (rbrace2 ++ post)))) (mkCliContext agent) =
      pre ++ (generateCrossReference rid (mkCliContext agent) ++ post) := by
  have hfl := fLink_token (mkCliContext agent) rid post hne hw
  have econs : linkOpen ++ (rid ++ (rbrace2 ++ post)) =
      '\x7b' :: ("\x7bLINK:".data ++ (rid ++ (rbrace2 ++ post))) := by
    rw [(by decide : linkOpen = '\x7b' :: "\x7bLINK:".data), List.cons_append]
  have hall : ∀ c ∈ pre ++ (generateCrossReference rid (mkCliContext agent) ++ post),
      c ≠ '\x7b' := by
    rw [List.forall_mem_append, List.forall_mem_append]
    exact ⟨hpre, gcr_no_lbrace agent rid hw, hpost⟩
  have hlink : rscan (fLink (mkCliContext agent))
      (pre ++ (linkOpen ++ (rid ++ (rbrace2 ++ post)))) =
      pre ++ (generateCrossReference rid (mkCliContext agent) ++ post) := by
    rw [rscan_append_free (fLink_trigger (mkCliContext agent)) hpre, econs]
    rw [econs] at hfl
    rw [rscan_cons_some (fLink_rem (mkCliContext agent)) hfl,
      rscan_id_of_no_trigger (fLink_trigger (mkCliContext agent)) hpost]
  rw [processVariables, hlink,
    rscan_id_of_no_trigger (fAgentName_trigger (mkCliContext agent)) hall,
    rscan_id_of_no_trigger (fRulesPath_trigger (mkCliContext agent)) hall]

/-! ### Character preservation through header strip and blank-line collapse -/

theorem headerP {P : Char → Prop} : ∀ (s rep rem : Str), fHeader s = some (rep, rem) →
    (∀ c ∈ s, P c) → (∀ c ∈ rep, P c) ∧ (∀ c ∈ rem, P c) := by
  intro s rep rem h hs
  obtain ⟨hrep, _, hac⟩ := fHeader_inv h
  subst hrep
  refine ⟨by simp, ?_⟩
  intro c hc
  exact hs c (mem_of_mem_dropL (afterHeaderClose_mem hac c hc))

theorem collapseP {P : Char → Prop} (hnl : P '\n') :
    ∀ (s rep rem : Str), fNewlines s = some (rep, rem) →
      (∀ c ∈ s, P c) → (∀ c ∈ rep, P c) ∧ (∀ c ∈ rem, P c) := by
  intro s rep rem h hs
  obtain ⟨_, hrep, hrem⟩ := fNewlines_inv h
  subst hrep
  subst hrem
  constructor
  · intro c hc
    have e : nl2 = ['\n', '\n'] := by decide
    rw [e] at hc
    simp only [List.mem_cons, List.not_mem_nil, or_false] at hc
    rcases hc with rfl | rfl <;> exact hnl
  · intro c hc
    exact hs c (mem_of_mem_dropWhileL hc)

/-! ## The claims -/

/-- C1 (amended).  For every agent identity and every template, the rendered
output of `processTemplate` contains zero runs of three or more consecutive
newline characters (so never three or more consecutive blank lines); and the
zero-`\x7b\x7b`/`\x7d\x7d`-delimiter half of the invariant holds for every
template that contains no brace characters at all.  (The unrestricted
delimiter half of the original claim is refuted by
`claim_C1_counterexample`: a hyphenated LINK rule id survives rendering.) -/
theorem claim_C1 (agent : Agent) (t : Str) :
    hasSub nl3 (processTemplate t (mkCliContext agent)) = false ∧
    ((∀ c ∈ t, c ≠ '\x7b' ∧ c ≠ '\x7d') →
      hasSub lbrace2 (processTemplate t (mkCliContext agent)) = false ∧
      hasSub rbrace2 (processTemplate t (mkCliContext agent)) = false) := by
  refine ⟨processTemplate_noTriple t _, ?_⟩
  intro hP
  have h1 : ∀ c ∈ removeTemplateHeaders t, c ≠ '\x7b' ∧ c ≠ '\x7d' :=
    replaceScan_chars headerP t.length t hP
  have hsub : hasSub lbrace2 (removeTemplateHeaders t) = false := by
    rw [(by decide : lbrace2 = '\x7b' :: ('\x7b' :: []))]
    exact hasSub_eq_false_of_notMem (fun hm => (h1 _ hm).1 rfl)
  have hpt : processTemplate t (mkCliContext agent) =
      collapseNewlines (removeTemplateHeaders t) := by
    rw [processTemplate, processConditionals_id hsub, processVariables_id hsub]
  have h2 : ∀ c ∈ processTemplate t (mkCliContext agent), c ≠ '\x7b' ∧ c ≠ '\x7d' := by
    rw [hpt]
    exact replaceScan_chars (collapseP (by decide)) _ _ h1
  constructor
  · rw [(by decide : lbrace2 = '\x7b' :: ('\x7b' :: []))]
    exact hasSub_eq_false_of_notMem (fun hm => (h2 _ hm).1 rfl)
  · rw [(by decide : rbrace2 = '\x7d' :: ('\x7d' :: []))]
    exact hasSub_eq_false_of_notMem (fun hm => (h2 _ hm).2 rfl)

/-- C1 witness: a concrete delimiter-free template rendered for `claude`. -/
theorem claim_C1_witness :
    hasSub nl3 (processTemplate "hello".data (mkCliContext .claude)) = false ∧
    (hasSub lbrace2 (processTemplate "hello".data (mkCliContext .claude)) = false ∧
      hasSub rbrace2 (processTemplate "hello".data (mkCliContext .claude)) = false) :=
  ⟨(claim_C1 .claude "hello".data).1, (claim_C1 .claude "hello".data).2 (by decide)⟩

/-- C1 counterexample: the template `\x7b\x7bLINK:bun-apis\x7d\x7d` renders
unchanged for `claude` (the LINK regex's `\w+` cannot match the hyphen), so
the rendered output still contains the `\x7b\x7b` delimiter, refuting the
claim that every rendered document is delimiter-free. -/
theorem claim_C1_counterexample :
    processTemplate "\x7b\x7bLINK:bun-apis\x7d\x7d".data (mkCliContext .claude) =
      "\x7b\x7bLINK:bun-apis\x7d\x7d".data ∧
    hasSub lbrace2
      (processTemplate "\x7b\x7bLINK:bun-apis\x7d\x7d".data (mkCliContext .claude)) = true := by
  decide

/-- C2 (amended).  Variable substitution replaces an occurrence of
`\x7b\x7bLINK:<ruleId>\x7d\x7d` with the Cross-Reference Generator's output
when `<ruleId>` is a nonempty word-character run (`[A-Za-z0-9_]+` — the `\w+`
of the source regex); rule ids containing a hyphen are not substituted
(`claim_C2_counterexample`).  The surrounding text is constrained to be free
of `\x7b` so that the occurrence is the one match of the scan. -/
theorem claim_C2 (agent : Agent) (rid pre post : Str)
    (hne : rid ≠ []) (hw : ∀ c ∈ rid, isWordChar c = true)
    (hpre : ∀ c ∈ pre, c ≠ '\x7b') (hpost : ∀ c ∈ post, c ≠ '\x7b') :
    processVariables (pre ++ (linkOpen ++ (rid ++ (rbrace2 ++ post)))) (mkCliContext agent) =
      pre ++ (generateCrossReference rid (mkCliContext agent) ++ post) :=
  processVariables_link agent rid pre post hne hw hpre hpost

/-- C2 witness: `\x7b\x7bLINK:testing\x7d\x7d` embedded in plain text is
replaced by the claude-style cross-reference. -/
theorem claim_C2_witness :
    processVariables ("see ".data ++ (linkOpen ++ ("testing".data ++ (rbrace2 ++ " now".data))))
      (mkCliContext .claude) =
      "see ".data ++ (generateCrossReference "testing".data (mkCliContext .claude) ++
        " now".data) :=
  claim_C2 .claude "testing".data "see ".data " now".data (by decide) (by decide)
    (by decide) (by decide)

/-- C2 counterexample: the hyphenated rule id `bun-apis` (explicitly named by
the claim) is not substituted — `processVariables` leaves the token as
literal text, which is not the Cross-Reference Generator's output. -/
theorem claim_C2_counterexample :
    processVariables "\x7b\x7bLINK:bun-apis\x7d\x7d".data (mkCliContext .claude) =
      "\x7b\x7bLINK:bun-apis\x7d\x7d".data ∧
    processVariables "\x7b\x7bLINK:bun-apis\x7d\x7d".data (mkCliContext .claude) ≠
      generateCrossReference "bun-apis".data (mkCliContext .claude) := by
  decide

/-- C3 (amended).  A condition `agent:<name>` evaluates to the case-sensitive
equality of `<name>` with the context's agent identity only when `<name>` is a
`\w+` word (no hyphen); and `agent:agents-md` evaluates to `false` for every
context — including one whose agent is `agents-md` — because the source regex
`^agent:(\w+)$` cannot match the hyphen. -/
theorem claim_C3 (ctx : TemplateContext) (name : Str) :
    (name ≠ [] → (∀ c ∈ name, isWordChar c = true) →
      evaluateCondition (agentPre ++ name) ctx = (ctx.agent.name == name)) ∧
    evaluateCondition "agent:agents-md".data ctx = false :=
  ⟨fun h1 h2 => evaluateCondition_agentPre ctx name h1 h2,
   evaluateCondition_agentsMd_false ctx⟩

/-- C3 witness: `agent:cursor` compared against the cursor context. -/
theorem claim_C3_witness :
    evaluateCondition (agentPre ++ "cursor".data) (mkCliContext .cursor) =
      ((mkCliContext .cursor).agent.name == "cursor".data) ∧
    evaluateCondition "agent:agents-md".data (mkCliContext .agentsMd) = false :=
  ⟨(claim_C3 (mkCliContext .cursor) "cursor".data).1 (by decide) (by decide),
   (claim_C3 (mkCliContext .agentsMd) "cursor".data).2⟩

/-- C3 counterexample: with the context whose agent identity is `agents-md`,
`evaluateCondition "agent:agents-md"` returns `false`, not `true` as the
claim states. -/
theorem claim_C3_counterexample :
    (mkCliContext .agentsMd).agent.name = "agents-md".data ∧
    evaluateCondition "agent:agents-md".data (mkCliContext .agentsMd) = false := by
  decide

/-- C4 (amended).  Among the four agents whose capability set marks
multi-document rules unsupported, only `copilot` receives the prose fallback
`See "<ruleId>" section`; `windsurf`, `cline` and `aider` fall through to the
default branch and receive the bare `<ruleId>.md` reference. -/
theorem claim_C4 (rid : Str) (caps : AgentCapabilities) (hds : Bool) (rp : Str) :
    generateCrossReference rid ⟨.copilot, caps, hds, rp⟩ =
      "See \"".data ++ rid ++ "\" section".data ∧
    generateCrossReference rid ⟨.windsurf, caps, hds, rp⟩ = rid ++ ".md".data ∧
    generateCrossReference rid ⟨.cline, caps, hds, rp⟩ = rid ++ ".md".data ∧
    generateCrossReference rid ⟨.aider, caps, hds, rp⟩ = rid ++ ".md".data :=
  ⟨rfl, rfl, rfl, rfl⟩

/-- C4 counterexample: `windsurf` has `multiFileRules = false` (its rules
live in one consolidated file), yet its cross-reference is `testing.md`,
not the prose fallback the claim asserts. -/
theorem claim_C4_counterexample :
    (AGENT_CAPABILITIES .windsurf).multiFileRules = false ∧
    generateCrossReference "testing".data (mkCliContext .windsurf) = "testing.md".data ∧
    generateCrossReference "testing".data (mkCliContext .windsurf) ≠
      "See \"testing\" section".data := by
  decide

/-- C5.  With the claude context (whose capability set has `hasSandbox = true`)
the template `\x7b\x7b#if has-sandbox\x7d\x7dA\x7b\x7b^if agent:cursor\x7d\x7dB\x7b\x7b/if\x7d\x7d\x7b\x7b/if\x7d\x7d`
resolves to exactly `AB`: the inner inverse block is resolved first (the outer
opener cannot match across it), then the re-scan resolves the outer positive
block. -/
theorem claim_C5 :
    (AGENT_CAPABILITIES .claude).hasSandbox = true ∧
    processConditionals
      "\x7b\x7b#if has-sandbox\x7d\x7dA\x7b\x7b^if agent:cursor\x7d\x7dB\x7b\x7b/if\x7d\x7d\x7b\x7b/if\x7d\x7d".data
      (mkCliContext .claude) = "AB".data := by
  decide

/-- C6 (amended).  Re-rendering an already-rendered document yields it
unchanged provided the rendered output is free of `\x7b\x7b`/`\x7d\x7d`
delimiters and additionally contains no complete HTML-comment block (header
stripping leaves it unchanged).  Without the extra condition the claim fails:
resolving a conditional can splice together a `<!-- ... -->` comment that the
second render then deletes (`claim_C6_counterexample`). -/
theorem claim_C6 (agent : Agent) (t : Str)
    (h1 : hasSub lbrace2 (processTemplate t (mkCliContext agent)) = false)
    (h2 : hasSub rbrace2 (processTemplate t (mkCliContext agent)) = false)
    (h3 : removeTemplateHeaders (processTemplate t (mkCliContext agent)) =
      processTemplate t (mkCliContext agent)) :
    processTemplate (processTemplate t (mkCliContext agent)) (mkCliContext agent) =
      processTemplate t (mkCliContext agent) := by
  suffices h : ∀ s : Str, hasSub lbrace2 s = false → removeTemplateHeaders s = s →
      hasSub nl3 s = false → processTemplate s (mkCliContext agent) = s by
    exact h _ h1 h3 (processTemplate_noTriple t _)
  intro s ha hc hd
  rw [processTemplate, hc, processConditionals_id ha, processVariables_id ha,
    collapseNewlines_id hd]

/-- C6 witness: a plain rendered text re-renders to itself. -/
theorem claim_C6_witness :
    processTemplate (processTemplate "hello".data (mkCliContext .claude))
      (mkCliContext .claude) = processTemplate "hello".data (mkCliContext .claude) :=
  claim_C6 .claude "hello".data (by decide) (by decide) (by decide)

/-- C6 counterexample: rendering `<!-\x7b\x7b#if x\x7d\x7d\x7b\x7b/if\x7d\x7d- hi -->`
yields the delimiter-free text `<!-- hi -->`, but rendering that a second time
strips it as a template header, yielding the empty string. -/
theorem claim_C6_counterexample :
    hasSub lbrace2 (processTemplate "<!-\x7b\x7b#if x\x7d\x7d\x7b\x7b/if\x7d\x7d- hi -->".data
      (mkCliContext .claude)) = false ∧
    hasSub rbrace2 (processTemplate "<!-\x7b\x7b#if x\x7d\x7d\x7b\x7b/if\x7d\x7d- hi -->".data
      (mkCliContext .claude)) = false ∧
    processTemplate (processTemplate "<!-\x7b\x7b#if x\x7d\x7d\x7b\x7b/if\x7d\x7d- hi -->".data
        (mkCliContext .claude)) (mkCliContext .claude) ≠
      processTemplate "<!-\x7b\x7b#if x\x7d\x7d\x7b\x7b/if\x7d\x7d- hi -->".data
        (mkCliContext .claude) := by
  decide

/-- C7.  A condition name outside the recognized families (not one of the
five literal names, not of the `agent:<token>` form) evaluates to `false` for
every context — the evaluator is total, so no error is possible — and a
positive block on the unknown name `nonsense` renders to the empty string for
every agent. -/
theorem claim_C7 :
    (∀ (cond : Str) (ctx : TemplateContext), cond ∉ knownConds →
      isAgentForm cond = false → evaluateCondition cond ctx = false) ∧
    (∀ agent : Agent,
      processConditionals "\x7b\x7b#if nonsense\x7d\x7dX\x7b\x7b/if\x7d\x7d".data
        (mkCliContext agent) = []) :=
  ⟨fun cond ctx hk ha => evaluateCondition_unknown cond ctx hk ha,
   fun agent => by cases agent <;> decide⟩

/-- C7 witness: a concrete unknown condition name, and the `nonsense` block
for the cursor agent. -/
theorem claim_C7_witness :
    evaluateCondition "totally-unknown".data (mkCliContext .claude) = false ∧
    processConditionals "\x7b\x7b#if nonsense\x7d\x7dX\x7b\x7b/if\x7d\x7d".data
      (mkCliContext .cursor) = [] :=
  ⟨claim_C7.1 "totally-unknown".data (mkCliContext .claude) (by decide) (by decide),
   claim_C7.2 .cursor⟩

/-- C8.  The re-scan-until-fixed-point loop of `processConditionals` is total:
each pass that changes the text strictly decreases its length, and the value
returned by `processConditionals` is a genuine fixed point of the pass. -/
theorem claim_C8 (ctx : TemplateContext) (s : Str) :
    (onePass ctx s ≠ s → (onePass ctx s).length < s.length) ∧
    onePass ctx (processConditionals s ctx) = processConditionals s ctx :=
  ⟨fun h => onePass_lt h, processConditionals_fix s ctx⟩

/-- C8 witness: one pass over `\x7b\x7b#if x\x7d\x7dA\x7b\x7b/if\x7d\x7d`
changes the text and strictly shrinks it. -/
theorem claim_C8_witness :
    (onePass (mkCliContext .claude) "\x7b\x7b#if x\x7d\x7dA\x7b\x7b/if\x7d\x7d".data).length <
      "\x7b\x7b#if x\x7d\x7dA\x7b\x7b/if\x7d\x7d".data.length ∧
    onePass (mkCliContext .claude)
        (processConditionals "\x7b\x7b#if x\x7d\x7dA\x7b\x7b/if\x7d\x7d".data
          (mkCliContext .claude)) =
      processConditionals "\x7b\x7b#if x\x7d\x7dA\x7b\x7b/if\x7d\x7d".data
        (mkCliContext .claude) :=
  ⟨(claim_C8 (mkCliContext .claude) "\x7b\x7b#if x\x7d\x7dA\x7b\x7b/if\x7d\x7d".data).1
      (by decide),
   (claim_C8 (mkCliContext .claude) "\x7b\x7b#if x\x7d\x7dA\x7b\x7b/if\x7d\x7d".data).2⟩

/-- C9.  `resolveFilePath` obeys the four rules in order: absolute paths are
returned unchanged; paths starting with `.` are joined to the working
directory; paths containing `/`, ending in a recognized source extension and
not starting with `@` are joined to the working directory; everything else is
attempted as a package-export resolution with a working-directory join as
fallback. -/
theorem claim_C9 (bunResolve : Str → Str → Option Str) (joinP : Str → Str → Str)
    (cwd fp : Str) :
    (startsWithL "/".data fp = true → resolveFilePath bunResolve joinP cwd fp = fp) ∧
    (startsWithL "/".data fp = false → startsWithL ".".data fp = true →
      resolveFilePath bunResolve joinP cwd fp = joinP cwd fp) ∧
    (startsWithL "/".data fp = false → startsWithL ".".data fp = false →
      startsWithL "@".data fp = false → fp.contains '/' = true → hasSourceExt fp = true →
      resolveFilePath bunResolve joinP cwd fp = joinP cwd fp) ∧
    (startsWithL "/".data fp = false → startsWithL ".".data fp = false →
      looksLikeFilePath fp = false →
      (∀ r, bunResolve fp cwd = some r → resolveFilePath bunResolve joinP cwd fp = r) ∧
      (bunResolve fp cwd = none → resolveFilePath bunResolve joinP cwd fp = joinP cwd fp)) := by
  refine ⟨?_, ?_, ?_, ?_⟩
  · intro h1
    simp [resolveFilePath, h1]
  · intro h1 h2
    simp [resolveFilePath, h1, h2]
  · intro h1 h2 h3 h4 h5
    have hl : looksLikeFilePath fp = true := by
      rw [looksLikeFilePath,
        if_neg (fun hh => by rw [h3] at hh; exact Bool.noConfusion hh), h4, h5]
      rfl
    simp [resolveFilePath, h1, h2, hl]
  · intro h1 h2 h3
    constructor
    · intro r hr
      simp [resolveFilePath, h1, h2, h3, hr]
    · intro hr
      simp [resolveFilePath, h1, h2, h3, hr]

/-- C9 witness: the four branches exercised on concrete inputs with concrete
`join` and package-resolution collaborators. -/
theorem claim_C9_witness :
    resolveFilePath (fun _ _ => none) (fun a b => a ++ b) "/cwd/".data "/abs.ts".data =
      "/abs.ts".data ∧
    resolveFilePath (fun _ _ => none) (fun a b => a ++ b) "/cwd/".data "./x.ts".data =
      "/cwd/".data ++ "./x.ts".data ∧
    resolveFilePath (fun _ _ => none) (fun a b => a ++ b) "/cwd/".data "src/x.ts".data =
      "/cwd/".data ++ "src/x.ts".data ∧
    resolveFilePath (fun _ _ => none) (fun a b => a ++ b) "/cwd/".data "lodash".data =
      "/cwd/".data ++ "lodash".data :=
  ⟨(claim_C9 (fun _ _ => none) (fun a b => a ++ b) "/cwd/".data "/abs.ts".data).1 (by decide),
   (claim_C9 (fun _ _ => none) (fun a b => a ++ b) "/cwd/".data "./x.ts".data).2.1
     (by decide) (by decide),
   (claim_C9 (fun _ _ => none) (fun a b => a ++ b) "/cwd/".data "src/x.ts".data).2.2.1
     (by decide) (by decide) (by decide) (by decide) (by decide),
   ((claim_C9 (fun _ _ => none) (fun a b => a ++ b) "/cwd/".data "lodash".data).2.2.2
     (by decide) (by decide) (by decide)).2 rfl⟩

/-- C10.  The CLI context fixes `hasDevelopmentSkills` to `true` for every
agent, so `development-skills` evaluates true, every positive
`development-skills` block keeps its body and every inverse block is removed
(for bodies free of nested `\x7b\x7b` markers, so the block is a single
conditional). -/
theorem claim_C10 (agent : Agent) :
    (mkCliContext agent).hasDevelopmentSkills = true ∧
    evaluateCondition dsName (mkCliContext agent) = true ∧
    (∀ body : Str, hasSub lbrace2 body = false →
      processConditionals (devPosOpen ++ (body ++ closeTok)) (mkCliContext agent) = body ∧
      processConditionals (devInvOpen ++ (body ++ closeTok)) (mkCliContext agent) = []) := by
  have hds : evaluateCondition dsName (mkCliContext agent) = true := by
    rw [evaluateCondition_dev]
    rfl
  refine ⟨rfl, hds, ?_⟩
  intro body hb
  constructor
  · rw [processConditionals_devPos _ body hb, if_pos hds]
  · rw [processConditionals_devInv _ body hb, if_pos hds]

/-- C10 witness: the two `development-skills` blocks with body `X` under the
windsurf CLI context. -/
theorem claim_C10_witness :
    processConditionals (devPosOpen ++ ("X".data ++ closeTok)) (mkCliContext .windsurf) =
      "X".data ∧
    processConditionals (devInvOpen ++ ("X".data ++ closeTok)) (mkCliContext .windsurf) =
      [] :=
  (claim_C10 .windsurf).2.2 "X".data (by decide)

end DevSkills
